import Mathlib

/-!
Verification of the core of the `qt_auto_translation` tool against its
natural-language specification.

The tool keeps a translation catalog: a `QMap<QString, QList<MessageInfo>>`
mapping context names to message lists (`src/translation/translation.cpp`,
`translation.h`).  This development shallowly embeds that data model and the
operations the specification talks about:

* the TS (XML) serializer `writeTsFile` and parser `parseTsFile`, embedded at
  the level of the XML token stream produced/consumed by `QXmlStreamWriter` /
  `QXmlStreamReader` (the spec itself, §9, describes the parser as a machine
  over these typed events; the byte-level encoding is Qt library code outside
  this repository),
* the CSV adapter: `exportToCsv`'s escaping, `parseCsvLine`, `importFromCsv`,
* the GPT response handling `processResponse` (both the final per-context
  variant of `translation.cpp` and the whole-catalog variant of `main.cpp`),
  including the JSON layer and the code-fence stripping,
* the batching pipeline of `main`,
* the in-memory pass of `clearTranslation`.

Modelling conventions:

* `QString` is modelled as `String`.  (`QMap<QString, _>` orders keys by
  UTF-16 code units; the model orders by the corresponding `String` order on
  characters, which agrees on all code points of the basic multilingual
  plane.)
* A `QMap` is modelled as an association list strictly sorted by key; the
  structural invariant `(· < ·)` pairwise on the keys is carried as a
  hypothesis where a theorem quantifies over catalogs, since every catalog a
  run manipulates is a `QMap`.
* `int` fields (location line numbers) are modelled as `Int` together with
  the 32-bit range invariant of the C++ type where it matters.
-/

/-- A source-code location, `struct Location` of `translation.h`:
filename and line number. -/
structure Location where
  filename : String
  line : Int
deriving DecidableEq, Repr

/-- One translatable message, `struct MessageInfo` of `translation.h`:
locations, source text, translation text and the `type` attribute of the
`<translation>` element (`"unfinished"` while untranslated). -/
structure MessageInfo where
  locations : List Location
  source : String
  translation : String
  translationType : String
deriving DecidableEq, Repr

/-- The two completion states of a message as the specification names them. -/
inductive TrState where
  | Unfinished
  | Finished
deriving DecidableEq, Repr

/-- The state of a message, read off the explicit `translationType` marker:
`Unfinished` exactly when the marker is the string `"unfinished"`. -/
def MessageInfo.state (m : MessageInfo) : TrState :=
  if m.translationType = "unfinished" then .Unfinished else .Finished

/-- The catalog, `QMap<QString, QList<MessageInfo>>`: an association list
from context name to message list, kept sorted by key as a `QMap` is. -/
abbrev Catalog := List (String × List MessageInfo)

/-- `QMap::insert`: insert into the sorted association list, replacing the
value if the key is already present. -/
def qmapInsert {α : Type} (k : String) (v : α) : List (String × α) → List (String × α)
  | [] => [(k, v)]
  | (k', v') :: rest =>
    if k < k' then (k, v) :: (k', v') :: rest
    else if k = k' then (k, v) :: rest
    else (k', v') :: qmapInsert k v rest

/-- Build a `QMap` by inserting the given pairs in order into an empty map. -/
def qmapOfList {α : Type} (ps : List (String × α)) : List (String × α) :=
  ps.foldl (fun m p => qmapInsert p.1 p.2 m) []

/-- `QMap::contains` / lookup: the first (hence, in a sorted map, the only)
value stored under the key. -/
def qmapFind? {α : Type} (k : String) : List (String × α) → Option α
  | [] => none
  | (k', v) :: rest => if k' = k then some v else qmapFind? k rest

/-- The message list of a context, empty when the context is absent. -/
def Catalog.msgsOf (cat : Catalog) (k : String) : List MessageInfo :=
  (qmapFind? k cat).getD []

/-- The keys of the map, in storage order. -/
def qmapKeys {α : Type} (m : List (String × α)) : List String :=
  m.map Prod.fst

/-- Update the value stored under a key in place (used for
`translations[name]` mutation through a reference); maps without the key are
returned unchanged. -/
def qmapAdjust {α : Type} (k : String) (f : α → α) : List (String × α) → List (String × α)
  | [] => []
  | (k', v) :: rest =>
    if k' = k then (k', f v) :: rest else (k', v) :: qmapAdjust k f rest

/-- `clearTranslation`'s in-memory pass on one message
(`translation.cpp:530-535`): clear the translation and set the marker to
`"unfinished"`. -/
def clearMsg (m : MessageInfo) : MessageInfo :=
  { m with translation := "", translationType := "unfinished" }

/-- `clearTranslation`'s in-memory pass (`translation.cpp:528-535`): for
every message of every context, clear the translation and mark it
unfinished. -/
def clearCatalog (cat : Catalog) : Catalog :=
  cat.map fun p => (p.1, p.2.map clearMsg)

theorem qmapInsert_subset {α : Type} (k : String) (v : α) :
    ∀ (m : List (String × α)), ∀ p ∈ qmapInsert k v m, p = (k, v) ∨ p ∈ m := by
  intro m
  induction m with
  | nil =>
    intro p hp
    simp [qmapInsert] at hp
    exact Or.inl hp
  | cons hd tl ih =>
    obtain ⟨k', v'⟩ := hd
    intro p hp
    simp only [qmapInsert] at hp
    split_ifs at hp with h1 h2
    · rcases List.mem_cons.mp hp with h | h
      · exact Or.inl h
      · exact Or.inr h
    · rcases List.mem_cons.mp hp with h | h
      · exact Or.inl h
      · exact Or.inr (List.mem_cons_of_mem _ h)
    · rcases List.mem_cons.mp hp with h | h
      · exact Or.inr (h ▸ List.mem_cons_self _ _)
      · rcases ih p h with h' | h'
        · exact Or.inl h'
        · exact Or.inr (List.mem_cons_of_mem _ h')

theorem qmapInsert_keys_sorted {α : Type} (k : String) (v : α) :
    ∀ (m : List (String × α)), m.Pairwise (fun a b => a.1 < b.1) →
    (qmapInsert k v m).Pairwise (fun a b => a.1 < b.1) := by
  intro m
  induction m with
  | nil =>
    intro _
    simp [qmapInsert]
  | cons hd tl ih =>
    obtain ⟨k', v'⟩ := hd
    intro h
    rcases List.pairwise_cons.mp h with ⟨hhd, htl⟩
    simp only [qmapInsert]
    split_ifs with h1 h2
    · refine List.pairwise_cons.mpr ⟨?_, h⟩
      intro p hp
      rcases List.mem_cons.mp hp with rfl | hp
      · exact h1
      · exact lt_trans h1 (hhd p hp)
    · refine List.pairwise_cons.mpr ⟨?_, htl⟩
      intro p hp
      exact h2 ▸ hhd p hp
    · refine List.pairwise_cons.mpr ⟨?_, ih htl⟩
      intro p hp
      rcases qmapInsert_subset k v tl p hp with rfl | hp'
      · exact lt_of_le_of_ne (not_lt.mp h1) (fun e => h2 e.symm)
      · exact hhd p hp'

/-- `QChar::isSpace` on the ASCII range (the only whitespace the tool's own
data paths produce). -/
def isQtSpace (c : Char) : Bool :=
  c = ' ' || c = '\t' || c = '\n' || (c.toNat = 11) || (c.toNat = 12) || c = '\r'

/-- `QString::trimmed` on the character list: strip whitespace from both
ends. -/
def trimChars (cs : List Char) : List Char :=
  ((cs.dropWhile isQtSpace).reverse.dropWhile isQtSpace).reverse

/-- `QString::trimmed`. -/
def qtrim (s : String) : String :=
  ⟨trimChars s.data⟩

/-- The decimal digit character for `n % 10`. -/
def digitChar10 (n : Nat) : Char :=
  Char.ofNat (48 + n % 10)

/-- Decimal digits of a natural number, most significant first, prepended
to `acc` (the digit loop behind `QString::number`).  Structural recursion
on a fuel bound; any bound above the digit count suffices. -/
def natDecimalGo : Nat → Nat → List Char → List Char
  | 0, _, acc => acc
  | fuel + 1, n, acc =>
    if n < 10 then digitChar10 n :: acc
    else natDecimalGo fuel (n / 10) (digitChar10 n :: acc)

/-- Decimal digits of a natural number. -/
def natDecimal (n : Nat) : List Char :=
  natDecimalGo (n + 1) n []

/-- `QString::number` on `int` values. -/
def intToString (i : Int) : String :=
  if i < 0 then ⟨'-' :: natDecimal i.natAbs⟩ else ⟨natDecimal i.toNat⟩

/-- Is `c` a decimal digit? -/
def isDigitChar (c : Char) : Bool :=
  48 ≤ c.toNat && c.toNat ≤ 57

/-- Numeric value of a digit character. -/
def digitVal (c : Char) : Nat :=
  c.toNat - 48

/-- Accumulating decimal parser: fails on the first non-digit. -/
def parseDigitsAux : List Char → Nat → Option Nat
  | [], v => some v
  | c :: rest, v =>
    if isDigitChar c then parseDigitsAux rest (v * 10 + digitVal c) else none

/-- Parse a non-empty all-digit string. -/
def parseDigits? (cs : List Char) : Option Nat :=
  match cs with
  | [] => none
  | _ :: _ => parseDigitsAux cs 0

/-- `QString::toInt` with its `ok` flag: optional sign, then decimal digits,
`none` (in C++: `ok = false`, result `0`) when the text is not a valid
`int`, including on 32-bit overflow. -/
def qtToIntOk (s : String) : Option Int :=
  match s.data with
  | [] => none
  | c :: rest =>
    if c = '-' then
      (parseDigits? rest).bind fun n =>
        if n ≤ 2147483648 then some (-(n : Int)) else none
    else if c = '+' then
      (parseDigits? rest).bind fun n =>
        if n ≤ 2147483647 then some (n : Int) else none
    else
      (parseDigits? (c :: rest)).bind fun n =>
        if n ≤ 2147483647 then some (n : Int) else none

/-- `QString::toInt` without the flag: `0` on failure. -/
def qtToInt (s : String) : Int :=
  (qtToIntOk s).getD 0

/-- Number of decimal digits `natDecimalGo` emits for `n` under the same
fuel. -/
def numDigitsGo : Nat → Nat → Nat
  | 0, _ => 0
  | fuel + 1, n => if n < 10 then 1 else numDigitsGo fuel (n / 10) + 1

theorem digitChar10_isDigit (n : Nat) : isDigitChar (digitChar10 n) = true := by
  have h : n % 10 < 10 := Nat.mod_lt _ (by omega)
  unfold digitChar10 isDigitChar
  interval_cases h' : n % 10 <;> simp_all <;> decide

theorem digitChar10_val (n : Nat) : digitVal (digitChar10 n) = n % 10 := by
  have h : n % 10 < 10 := Nat.mod_lt _ (by omega)
  unfold digitChar10 digitVal
  interval_cases h' : n % 10 <;> simp_all <;> decide

theorem natDecimalGo_head :
    ∀ (fuel n : Nat) (acc : List Char), n < fuel →
    ∃ c cs, natDecimalGo fuel n acc = c :: cs ∧ isDigitChar c = true := by
  intro fuel
  induction fuel with
  | zero =>
    intro n acc h
    omega
  | succ fuel ih =>
    intro n acc h
    unfold natDecimalGo
    by_cases h10 : n < 10
    · exact ⟨digitChar10 n, acc, by simp [h10], digitChar10_isDigit n⟩
    · have hlt : n / 10 < fuel := by omega
      simpa [h10] using ih (n / 10) _ hlt

theorem parseDigitsAux_natDecimalGo :
    ∀ (fuel n : Nat) (acc : List Char) (v : Nat), n < fuel →
    parseDigitsAux (natDecimalGo fuel n acc) v =
      parseDigitsAux acc (v * 10 ^ numDigitsGo fuel n + n) := by
  intro fuel
  induction fuel with
  | zero =>
    intro n acc v h
    omega
  | succ fuel ih =>
    intro n acc v h
    unfold natDecimalGo numDigitsGo
    by_cases h10 : n < 10
    · simp only [if_pos h10, parseDigitsAux, digitChar10_isDigit, if_true,
        digitChar10_val]
      have : n % 10 = n := Nat.mod_eq_of_lt h10
      rw [this]
      norm_num
    · have hlt : n / 10 < fuel := by omega
      simp only [if_neg h10]
      rw [ih (n / 10) _ v hlt]
      simp only [parseDigitsAux, digitChar10_isDigit, if_true, digitChar10_val]
      congr 1
      have hmod := Nat.div_add_mod n 10
      ring_nf
      omega

theorem parseDigits_natDecimal (n : Nat) : parseDigits? (natDecimal n) = some n := by
  obtain ⟨c, cs, he, _⟩ := natDecimalGo_head (n + 1) n [] (by omega)
  have he' : natDecimal n = c :: cs := he
  simp only [parseDigits?, he']
  show parseDigitsAux (c :: cs) 0 = some n
  rw [← he']
  show parseDigitsAux (natDecimalGo (n + 1) n []) 0 = some n
  rw [parseDigitsAux_natDecimalGo (n + 1) n [] 0 (by omega)]
  simp [parseDigitsAux]

theorem qtToIntOk_intToString (i : Int)
    (h1 : -2147483648 ≤ i) (h2 : i ≤ 2147483647) :
    qtToIntOk (intToString i) = some i := by
  unfold intToString
  by_cases hneg : i < 0
  · rw [if_pos hneg]
    show qtToIntOk ⟨'-' :: natDecimal i.natAbs⟩ = some i
    simp only [qtToIntOk, parseDigits_natDecimal, Option.some_bind]
    have hle : i.natAbs ≤ 2147483648 := by omega
    rw [if_pos hle, Int.ofNat_natAbs_of_nonpos (le_of_lt hneg), neg_neg]
    simp
  · rw [if_neg hneg]
    obtain ⟨c, cs, he, hd⟩ := natDecimalGo_head (i.toNat + 1) i.toNat [] (by omega)
    have he' : natDecimal i.toNat = c :: cs := he
    have hc1 : ¬ (c = '-') := by
      intro h
      rw [h] at hd
      simp [isDigitChar] at hd
    have hc2 : ¬ (c = '+') := by
      intro h
      rw [h] at hd
      simp [isDigitChar] at hd
    have hstr : (⟨natDecimal i.toNat⟩ : String) = ⟨c :: cs⟩ := by rw [he']
    rw [hstr]
    simp only [qtToIntOk, if_neg hc1, if_neg hc2]
    rw [← he', parseDigits_natDecimal]
    have hle : i.toNat ≤ 2147483647 := by omega
    simp only [Option.some_bind, if_pos hle]
    rw [Int.toNat_of_nonneg (not_lt.mp hneg)]

/-- Does `exportToCsv`'s field escaping need to quote this field
(`translation.cpp:199-209`)?  True when the field contains a comma, a
quote, or a newline. -/
def csvNeedsQuoting (cs : List Char) : Bool :=
  cs.contains ',' || cs.contains '\"' || cs.contains '\n'

/-- `result.replace("\"", "\"\"")`: double every quote character. -/
def doubleQuotes : List Char → List Char
  | [] => []
  | c :: rest =>
    if c = '\"' then '\"' :: '\"' :: doubleQuotes rest
    else c :: doubleQuotes rest

/-- The `escapeCsvField` lambda of `exportToCsv` (`translation.cpp:199-209`)
on the character list: double the quotes and wrap in quotes exactly when
the field contains a comma, quote or newline. -/
def escCsvChars (cs : List Char) : List Char :=
  if csvNeedsQuoting cs then '\"' :: (doubleQuotes cs ++ ['\"']) else cs

/-- The `escapeCsvField` lambda of `exportToCsv`. -/
def escapeCsvField (s : String) : String :=
  ⟨escCsvChars s.data⟩

/-- The loop body of `parseCsvLine` (`translation.cpp:236-268`): one pass
over the characters with the `inQuotes` flag, the current field and the
fields finished so far.  The quote look-ahead `i + 1 < line.length() &&
line.at(i + 1) == quote` is the `head?` test. -/
def parseCsvAux : List Char → Bool → List Char → List (List Char) → List (List Char)
  | [], _, field, acc => acc ++ [field]
  | c :: rest, true, field, acc =>
    if c = '\"' then
      match rest with
      | c2 :: rest2 =>
        if c2 = '\"' then parseCsvAux rest2 true (field ++ ['\"']) acc
        else parseCsvAux (c2 :: rest2) false field acc
      | [] => acc ++ [field]
    else
      parseCsvAux rest true (field ++ [c]) acc
  | c :: rest, false, field, acc =>
    if c = '\"' then
      parseCsvAux rest true field acc
    else if c = ',' then
      parseCsvAux rest false [] (acc ++ [field])
    else
      parseCsvAux rest false (field ++ [c]) acc

theorem parseCsvAux_cons_true (c : Char) (rest field : List Char)
    (acc : List (List Char)) :
    parseCsvAux (c :: rest) true field acc =
      if c = '\"' then
        match rest with
        | c2 :: rest2 =>
          if c2 = '\"' then parseCsvAux rest2 true (field ++ ['\"']) acc
          else parseCsvAux (c2 :: rest2) false field acc
        | [] => acc ++ [field]
      else
        parseCsvAux rest true (field ++ [c]) acc := by
  rw [parseCsvAux.eq_def]

theorem parseCsvAux_cons_false (c : Char) (rest field : List Char)
    (acc : List (List Char)) :
    parseCsvAux (c :: rest) false field acc =
      if c = '\"' then
        parseCsvAux rest true field acc
      else if c = ',' then
        parseCsvAux rest false [] (acc ++ [field])
      else
        parseCsvAux rest false (field ++ [c]) acc := by
  rw [parseCsvAux.eq_def]

/-- `parseCsvLine` (`translation.cpp:236-268`). -/
def parseCsvLine (line : String) : List String :=
  (parseCsvAux line.data false [] []).map fun cs => ⟨cs⟩

/-- Joining already escaped fields with commas, as one `out << ... << ","
<< ...` line of `exportToCsv` does. -/
def csvJoinChars : List (List Char) → List Char
  | [] => []
  | [f] => f
  | f :: fs => f ++ ',' :: csvJoinChars fs

/-- One CSV line from a list of raw fields: escape each field and join with
commas. -/
def csvLineOfFields (fields : List String) : String :=
  ⟨csvJoinChars (fields.map fun f => escCsvChars f.data)⟩

theorem parseCsvAux_unquoted (f : List Char)
    (hf : ¬ (',' ∈ f) ∧ ¬ ('\"' ∈ f)) :
    ∀ (rest field : List Char) (acc : List (List Char)),
    parseCsvAux (f ++ rest) false field acc =
      parseCsvAux rest false (field ++ f) acc := by
  induction f with
  | nil => simp
  | cons c f' ih =>
    intro rest field acc
    simp only [List.mem_cons, not_or] at hf
    have hcc : ¬ (c = ',') := fun h => hf.1.1 h.symm
    have hcq : ¬ (c = '\"') := fun h => hf.2.1 h.symm
    show parseCsvAux (c :: (f' ++ rest)) false field acc = _
    rw [parseCsvAux]
    simp only [if_neg hcq, if_neg hcc]
    rw [ih ⟨hf.1.2, hf.2.2⟩]
    simp

theorem parseCsvAux_quoted (f : List Char) :
    ∀ (rest field : List Char) (acc : List (List Char)),
    rest.head? ≠ some '\"' →
    parseCsvAux (doubleQuotes f ++ '\"' :: rest) true field acc =
      parseCsvAux rest false (field ++ f) acc := by
  induction f with
  | nil =>
    intro rest field acc hrest
    show parseCsvAux ('\"' :: rest) true field acc = _
    rw [parseCsvAux_cons_true]
    simp only [if_pos rfl, if_true]
    cases rest with
    | nil => simp [parseCsvAux]
    | cons c2 rest2 =>
      have hc2 : ¬ (c2 = '\"') := by
        intro h
        rw [List.head?_cons, h] at hrest
        exact hrest rfl
      simp [hc2]
  | cons c f' ih =>
    intro rest field acc hrest
    by_cases hc : c = '\"'
    · subst hc
      simp only [doubleQuotes, eq_self_iff_true, if_true, List.cons_append]
      rw [parseCsvAux_cons_true]
      simp only [if_pos rfl, if_true]
      rw [ih _ _ _ hrest]
      simp
    · simp only [doubleQuotes, if_neg hc, List.cons_append]
      rw [parseCsvAux_cons_true]
      simp only [if_neg hc]
      rw [ih _ _ _ hrest]
      simp

theorem csvNeedsQuoting_false (f : List Char) (h : csvNeedsQuoting f = false) :
    ¬ (',' ∈ f) ∧ ¬ ('\"' ∈ f) := by
  simp only [csvNeedsQuoting, Bool.or_eq_false_iff, List.contains,
    List.elem_eq_mem, decide_eq_false_iff_not] at h
  exact ⟨h.1.1, h.1.2⟩

theorem parseCsvAux_join (fs : List (List Char)) :
    ∀ (f field : List Char) (acc : List (List Char)),
    parseCsvAux (csvJoinChars ((f :: fs).map escCsvChars)) false field acc =
      acc ++ (field ++ f) :: fs := by
  induction fs with
  | nil =>
    intro f field acc
    show parseCsvAux (csvJoinChars [escCsvChars f]) false field acc = _
    by_cases hq : csvNeedsQuoting f
    · simp only [csvJoinChars, escCsvChars, if_pos hq, List.cons_append]
      rw [parseCsvAux_cons_false]
      simp only [if_pos rfl, if_true]
      have h0 : (doubleQuotes f ++ ['\"'] : List Char) =
          doubleQuotes f ++ '\"' :: [] := rfl
      rw [h0, parseCsvAux_quoted f [] field acc (by simp)]
      simp [parseCsvAux]
    · simp only [csvJoinChars, escCsvChars, if_neg hq]
      rw [← List.append_nil f]
      rw [parseCsvAux_unquoted f
        (csvNeedsQuoting_false f (eq_false_of_ne_true hq)) [] field acc]
      simp [parseCsvAux]
  | cons f2 fs' ih =>
    intro f field acc
    have hjoin : csvJoinChars ((f :: f2 :: fs').map escCsvChars) =
        escCsvChars f ++ ',' :: csvJoinChars ((f2 :: fs').map escCsvChars) := rfl
    rw [hjoin]
    by_cases hq : csvNeedsQuoting f
    · simp only [escCsvChars, if_pos hq, List.cons_append, List.append_assoc,
        List.singleton_append]
      rw [parseCsvAux_cons_false]
      simp only [if_pos rfl, if_true]
      rw [parseCsvAux_quoted f _ field acc (by simp)]
      simp only [List.nil_append]
      rw [parseCsvAux_cons_false]
      have hcq : ¬ ((',' : Char) = '\"') := by decide
      simp only [if_neg hcq, if_pos rfl]
      rw [ih]
      simp
    · simp only [escCsvChars, if_neg hq]
      rw [parseCsvAux_unquoted f
        (csvNeedsQuoting_false f (eq_false_of_ne_true hq)) _ field acc]
      rw [parseCsvAux_cons_false]
      have hcq : ¬ ((',' : Char) = '\"') := by decide
      simp only [if_neg hcq, if_pos rfl]
      rw [ih]
      simp

theorem parseCsvLine_ofFields (fields : List String) (h : fields ≠ []) :
    parseCsvLine (csvLineOfFields fields) = fields := by
  obtain ⟨f, fs, rfl⟩ : ∃ g gs, fields = g :: gs := by
    cases fields with
    | nil => simp at h
    | cons g gs => exact ⟨g, gs, rfl⟩
  show ((parseCsvAux
      (csvJoinChars ((f :: fs).map fun g => escCsvChars g.data))
      false [] []).map fun cs => (⟨cs⟩ : String)) = f :: fs
  have hmap : ((f :: fs).map fun g => escCsvChars g.data) =
      (f.data :: fs.map String.data).map escCsvChars := by
    simp [List.map_map]
  rw [hmap, parseCsvAux_join]
  simp only [List.nil_append, List.map_cons, List.map_map]
  have : ∀ gs : List String,
      gs.map ((fun cs => (⟨cs⟩ : String)) ∘ String.data) = gs := by
    intro gs
    induction gs with
    | nil => rfl
    | cons g gs ih => simp [ih]
  rw [this]

/-- One XML token as `QXmlStreamReader`/`QXmlStreamWriter` exchange them.
The spec (§9) describes the TS parser as a machine over exactly these typed
events; the byte encoding between tokens and the file is Qt library code
outside this repository. -/
inductive XmlToken where
  | startDocument
  | dtd (text : String)
  | startElement (name : String) (attrs : List (String × String))
  | endElement (name : String)
  | characters (text : String)
  | endDocument
deriving DecidableEq, Repr

/-- `QXmlStreamAttributes::value(name).toString()`: the value of the first
attribute with the given name, `""` when absent. -/
def attrValue : List (String × String) → String → String
  | [], _ => ""
  | (k, v) :: rest, name => if k = name then v else attrValue rest name

/-- A TS input as the reader presents it: the tokens of the well-formed
prefix of the document, and whether a structural error is reported at the
point where the tokens end (`QXmlStreamReader::hasError`).  A well-formed
document has `err = false` and ends with `endDocument`. -/
structure TsStream where
  tokens : List XmlToken
  err : Bool
deriving DecidableEq, Repr

/-- `QXmlStreamReader::hasError()` for a stream. -/
def TsStream.hasError (s : TsStream) : Bool :=
  s.err

/-- The tokens of one `<location filename=... line=.../>` element
(`writer.writeEmptyElement` plus attributes, `translation.cpp:155-159`). -/
def locTokens (loc : Location) : List XmlToken :=
  [.startElement "location"
      [("filename", loc.filename), ("line", intToString loc.line)],
   .endElement "location"]

/-- `writer.writeTextElement(name, text)`: the element with its text.  At
the byte level an empty text produces no characters token when read back,
so one is emitted exactly when the text is non-empty. -/
def textElemTokens (name text : String) : List XmlToken :=
  .startElement name [] ::
    ((if text = "" then [] else [.characters text]) ++ [.endElement name])

/-- The tokens of one `<message>` element as `writeTsFile` emits them
(`translation.cpp:152-167`): the locations, the source text and the
translation, whose `type="unfinished"` attribute is present exactly when
the translation is empty. -/
def msgTokens (m : MessageInfo) : List XmlToken :=
  [.startElement "message" []] ++ (m.locations.map locTokens).flatten ++
    textElemTokens "source" m.source ++
    [.startElement "translation"
      (if m.translation = "" then [("type", "unfinished")] else [])] ++
    (if m.translation = "" then [] else [.characters m.translation]) ++
    [.endElement "translation", .endElement "message"]

/-- The tokens of one `<context>` element as `writeTsFile` emits them
(`translation.cpp:148-170`): the name element, then the messages in their
in-memory list order. -/
def ctxTokens (p : String × List MessageInfo) : List XmlToken :=
  [.startElement "context" []] ++ textElemTokens "name" p.1 ++
    (p.2.map msgTokens).flatten ++ [.endElement "context"]

/-- The document head `writeTsFile` emits: start of document, DTD and the
`<TS version="2.1" language=...>` root (`translation.cpp:141-145`). -/
def tsHeaderTokens (lang : String) : List XmlToken :=
  [.startDocument, .dtd "<!DOCTYPE TS>",
   .startElement "TS" [("version", "2.1"), ("language", lang)]]

/-- The full token stream `writeTsFile` emits (`translation.cpp:132-175`):
the header, one context block per map entry in map (key) order, and the
closing of the root. -/
def writeTsTokens (cat : Catalog) (lang : String) : List XmlToken :=
  tsHeaderTokens lang ++ (cat.map ctxTokens).flatten ++
    [.endElement "TS", .endDocument]

/-- `writeTsFile` as a stream: its output is well formed. -/
def writeTsFile (cat : Catalog) (lang : String) : TsStream :=
  ⟨writeTsTokens cat lang, false⟩

/-- The control position of `parseTsFile`'s nested token loops
(`translation.cpp:42-82`), flattened into one mode per loop/`readElementText`
/`skipCurrentElement` position. -/
inductive PMode where
  | outer
  | inContext (name : String) (msgs : List MessageInfo)
  | readName (msgs : List MessageInfo) (acc : String)
  | inMessage (name : String) (msgs : List MessageInfo) (m : MessageInfo)
  | skipLocation (name : String) (msgs : List MessageInfo) (m : MessageInfo)
      (depth : Nat)
  | readSource (name : String) (msgs : List MessageInfo) (m : MessageInfo)
      (acc : String)
  | readTranslation (name : String) (msgs : List MessageInfo) (m : MessageInfo)
      (acc : String)

/-- The whole parser state: control position plus the context map built so
far. -/
structure PState where
  mode : PMode
  cmap : Catalog

/-- One step of `parseTsFile`'s token scan (`translation.cpp:42-82`), one
token at a time.  Each loop of the C++ examines each token exactly once, so
the nest of loops is equivalently a single left fold of this step function:

* `outer`: the main `while` loop; only a `<context>` start is acted on.
* `inContext`: the context loop; `<name>` and `<message>` starts are acted
  on, `</context>` closes the context and inserts it under its name unless
  the name is empty.
* `readName`/`readSource`/`readTranslation`: inside `readElementText`,
  which concatenates character data until the element's end token.  (On a
  nested start element `readElementText` raises and the surrounding loops
  never terminate in the C++; no claim exercises that region, and the model
  ignores such tokens.)
* `skipLocation`: inside `skipCurrentElement` after a `<location>` element
  was recorded; skips tokens, tracking depth, until the matching end.
* on `</message>` the message is appended to the context's list. -/
def tsStep (st : PState) (t : XmlToken) : PState :=
  match st.mode, t with
  | .outer, .startElement n _ =>
    if n = "context" then { st with mode := .inContext "" [] } else st
  | .outer, _ => st
  | .inContext name msgs, .startElement n attrs =>
    if n = "name" then { st with mode := .readName msgs "" }
    else if n = "message" then
      { st with mode := .inMessage name msgs ⟨[], "", "", ""⟩ }
    else
      let _ := attrs
      st
  | .inContext name msgs, .endElement n =>
    if n = "context" then
      { mode := .outer,
        cmap := if name = "" then st.cmap else qmapInsert name msgs st.cmap }
    else st
  | .inContext _ _, _ => st
  | .readName msgs acc, .characters s =>
    { st with mode := .readName msgs (acc ++ s) }
  | .readName msgs acc, .endElement _ =>
    { st with mode := .inContext acc msgs }
  | .readName _ _, _ => st
  | .inMessage name msgs m, .startElement n attrs =>
    if n = "location" then
      let m' := { m with locations := m.locations ++
        [⟨attrValue attrs "filename", qtToInt (attrValue attrs "line")⟩] }
      { st with mode := PMode.skipLocation name msgs m' 0 }
    else if n = "source" then
      { st with mode := .readSource name msgs m "" }
    else if n = "translation" then
      let m' := { m with translationType := attrValue attrs "type" }
      { st with mode := PMode.readTranslation name msgs m' "" }
    else st
  | .inMessage name msgs m, .endElement n =>
    if n = "message" then { st with mode := .inContext name (msgs ++ [m]) }
    else st
  | .inMessage _ _ _, _ => st
  | .skipLocation name msgs m d, .startElement _ _ =>
    { st with mode := .skipLocation name msgs m (d + 1) }
  | .skipLocation name msgs m d, .endElement _ =>
    if d = 0 then { st with mode := .inMessage name msgs m }
    else { st with mode := .skipLocation name msgs m (d - 1) }
  | .skipLocation _ _ _ _, _ => st
  | .readSource name msgs m acc, .characters s =>
    { st with mode := .readSource name msgs m (acc ++ s) }
  | .readSource name msgs m acc, .endElement _ =>
    { st with mode := .inMessage name msgs { m with source := acc } }
  | .readSource _ _ _ _, _ => st
  | .readTranslation name msgs m acc, .characters s =>
    { st with mode := .readTranslation name msgs m (acc ++ s) }
  | .readTranslation name msgs m acc, .endElement _ =>
    { st with mode := .inMessage name msgs { m with translation := acc } }
  | .readTranslation _ _ _ _, _ => st

/-- `parseTsFile` on a token list: fold the step over the tokens and return
the context map built so far (`translation.cpp:31-87`).  Only the OUTER
loop tests `atEnd()`/`hasError()` (`translation.cpp:42`), so this fold is
the function's behaviour exactly for supplies of tokens that end at the
top level — at the end of the document, or at an error reported between
context elements, where the outer loop stops and whatever was inserted
into the map up to then is returned.  When the token supply ends inside an
open context the C++ does not stop: the inner loops never test
`hasError()` and spin on the reader's Invalid tokens (`ctxLoopAfterError`
and `msgLoopAfterError` below), so no fold value describes that case. -/
def parseTsTokens (tokens : List XmlToken) : Catalog :=
  (tokens.foldl tsStep ⟨.outer, []⟩).cmap

/-- `parseTsFile` on a stream whose token supply ends at the top level of
the document (see `parseTsTokens`). -/
def parseTsFile (s : TsStream) : Catalog :=
  parseTsTokens s.tokens

/-- What `tokenType()` reports inside `parseTsFile`'s loops: a token of
the stream, or `Invalid`, which `QXmlStreamReader` reports on every
further `readNext()` call once an error has been raised. -/
inductive QtTok where
  | ok (t : XmlToken)
  | invalid
deriving DecidableEq, Repr

/-- The condition of the context loop (`translation.cpp:48`): run until
the current token is `</context>`. -/
def isEndContextTok : QtTok → Bool
  | .ok (.endElement n) => n = "context"
  | _ => false

/-- The condition of the message loop (`translation.cpp:54`): run until
the current token is `</message>`. -/
def isEndMessageTok : QtTok → Bool
  | .ok (.endElement n) => n = "message"
  | _ => false

/-- `readNext()` once the reader is in its error state: it returns
`Invalid`, forever. -/
def errReadNext : Unit → QtTok :=
  fun _ => .invalid

/-- The context loop of `parseTsFile` (`translation.cpp:48-79`) observed
from the moment the reader has raised an error, run for `fuel` more
iterations: `t` is the current token; the loop exits (`some ()`, the
context is then closed) when `t` is `</context>`, otherwise the body runs
— with an `Invalid` token its `StartElement` branches are all dead — and
the trailing `readNext()` yields the next token.  `none` means the loop
has not exited within `fuel` iterations; the loop never tests
`hasError()` or `atEnd()`. -/
def ctxLoopAfterError : Nat → QtTok → Option Unit
  | 0, _ => none
  | fuel + 1, t =>
    if isEndContextTok t then some () else ctxLoopAfterError fuel (errReadNext ())

/-- The message loop of `parseTsFile` (`translation.cpp:54-73`) observed
from the moment the reader has raised an error, exactly as
`ctxLoopAfterError`: exit only on `</message>`, no error test. -/
def msgLoopAfterError : Nat → QtTok → Option Unit
  | 0, _ => none
  | fuel + 1, t =>
    if isEndMessageTok t then some () else msgLoopAfterError fuel (errReadNext ())

/-- What one message round-trips to through `writeTsFile` then
`parseTsFile`: the text content is kept and the `type` marker is
re-derived from emptiness of the translation; the location line passes
through `QString::number` and `QString::toInt`. -/
def roundMsg (m : MessageInfo) : MessageInfo :=
  { locations :=
      m.locations.map fun loc => ⟨loc.filename, qtToInt (intToString loc.line)⟩,
    source := m.source,
    translation := m.translation,
    translationType := if m.translation = "" then "unfinished" else "" }

/-- `roundMsg` for in-range lines: only the unfinished marker is
re-derived. -/
def canonMsg (m : MessageInfo) : MessageInfo :=
  { m with translationType := if m.translation = "" then "unfinished" else "" }

theorem tsFold_locTokens (loc : Location) (name : String)
    (msgs : List MessageInfo) (m : MessageInfo) (cmap : Catalog) :
    (locTokens loc).foldl tsStep ⟨.inMessage name msgs m, cmap⟩ =
      ⟨.inMessage name msgs
        { m with locations := m.locations ++
            [⟨loc.filename, qtToInt (intToString loc.line)⟩] }, cmap⟩ := by
  simp [locTokens, tsStep, attrValue]

theorem tsFold_locsTokens (locs : List Location) :
    ∀ (name : String) (msgs : List MessageInfo) (m : MessageInfo)
      (cmap : Catalog),
    ((locs.map locTokens).flatten).foldl tsStep ⟨.inMessage name msgs m, cmap⟩ =
      ⟨.inMessage name msgs
        { m with locations := m.locations ++
            locs.map fun loc => ⟨loc.filename, qtToInt (intToString loc.line)⟩ },
        cmap⟩ := by
  induction locs with
  | nil =>
    intro name msgs m cmap
    simp
  | cons loc locs ih =>
    intro name msgs m cmap
    simp only [List.map_cons, List.flatten_cons, List.foldl_append,
      tsFold_locTokens, ih, List.cons_append]
    simp [List.append_assoc]

theorem tsFold_msgTokens (m : MessageInfo) (name : String)
    (msgs : List MessageInfo) (cmap : Catalog) :
    (msgTokens m).foldl tsStep ⟨.inContext name msgs, cmap⟩ =
      ⟨.inContext name (msgs ++ [roundMsg m]), cmap⟩ := by
  unfold msgTokens
  simp only [List.foldl_append, List.foldl_cons, List.foldl_nil]
  have h1 : tsStep ⟨.inContext name msgs, cmap⟩ (.startElement "message" []) =
      ⟨.inMessage name msgs ⟨[], "", "", ""⟩, cmap⟩ := by
    simp [tsStep]
  rw [h1, tsFold_locsTokens]
  by_cases hs : m.source = ""
  · by_cases ht : m.translation = ""
    · simp [textElemTokens, hs, ht, tsStep, attrValue, roundMsg]
    · simp [textElemTokens, hs, ht, tsStep, attrValue, roundMsg]
  · by_cases ht : m.translation = ""
    · simp [textElemTokens, hs, ht, tsStep, attrValue, roundMsg]
    · simp [textElemTokens, hs, ht, tsStep, attrValue, roundMsg]

theorem tsFold_msgsTokens (ms : List MessageInfo) :
    ∀ (name : String) (msgs : List MessageInfo) (cmap : Catalog),
    ((ms.map msgTokens).flatten).foldl tsStep ⟨.inContext name msgs, cmap⟩ =
      ⟨.inContext name (msgs ++ ms.map roundMsg), cmap⟩ := by
  induction ms with
  | nil =>
    intro name msgs cmap
    simp
  | cons m ms ih =>
    intro name msgs cmap
    simp only [List.map_cons, List.flatten_cons, List.foldl_append,
      tsFold_msgTokens, ih]
    simp

theorem tsFold_ctxTokens (p : String × List MessageInfo) (cmap : Catalog)
    (hname : p.1 ≠ "") :
    (ctxTokens p).foldl tsStep ⟨.outer, cmap⟩ =
      ⟨.outer, qmapInsert p.1 (p.2.map roundMsg) cmap⟩ := by
  obtain ⟨k, ms⟩ := p
  have hk : ¬ (k = "") := hname
  simp only [ctxTokens, textElemTokens, List.cons_append, List.nil_append,
    List.foldl_append, List.foldl_cons, List.foldl_nil, hk, if_neg,
    if_false]
  have h1 : tsStep ⟨.outer, cmap⟩ (.startElement "context" []) =
      ⟨.inContext "" [], cmap⟩ := by
    simp [tsStep]
  rw [h1]
  have h2 : tsStep ⟨.inContext "" [], cmap⟩ (.startElement "name" []) =
      ⟨.readName [] "", cmap⟩ := by
    simp [tsStep]
  rw [h2]
  have h3 : tsStep ⟨.readName [] "", cmap⟩ (.characters k) =
      ⟨.readName [] k, cmap⟩ := by
    simp [tsStep]
  rw [h3]
  have h4 : tsStep ⟨.readName [] k, cmap⟩ (.endElement "name") =
      ⟨.inContext k [], cmap⟩ := by
    simp [tsStep]
  rw [h4, tsFold_msgsTokens]
  simp [tsStep, hk]

theorem tsFold_ctxsTokens (cat : Catalog) :
    ∀ (cmap : Catalog), (∀ p ∈ cat, p.1 ≠ "") →
    ((cat.map ctxTokens).flatten).foldl tsStep ⟨.outer, cmap⟩ =
      ⟨.outer, cat.foldl
        (fun m p => qmapInsert p.1 (p.2.map roundMsg) m) cmap⟩ := by
  induction cat with
  | nil =>
    intro cmap _
    simp
  | cons p cat ih =>
    intro cmap hne
    simp only [List.map_cons, List.flatten_cons, List.foldl_append,
      List.foldl_cons]
    rw [tsFold_ctxTokens p cmap (hne p (List.mem_cons_self _ _))]
    rw [ih _ fun q hq => hne q (List.mem_cons_of_mem _ hq)]

theorem qmapInsert_gt (k : String) (v : List MessageInfo) :
    ∀ (m : Catalog), (∀ p ∈ m, p.1 < k) → qmapInsert k v m = m ++ [(k, v)] := by
  intro m
  induction m with
  | nil =>
    intro _
    rfl
  | cons q m ih =>
    intro h
    obtain ⟨k', v'⟩ := q
    have hlt : k' < k := h (k', v') (List.mem_cons_self _ _)
    simp only [qmapInsert]
    rw [if_neg (asymm hlt), if_neg (ne_of_gt hlt)]
    rw [ih fun p hp => h p (List.mem_cons_of_mem _ hp)]
    rfl

theorem tsFold_inserts (cat : Catalog)
    (hsorted : cat.Pairwise fun a b => a.1 < b.1) :
    ∀ (cmap : Catalog), (∀ p ∈ cmap, ∀ q ∈ cat, p.1 < q.1) →
    cat.foldl (fun m p => qmapInsert p.1 (p.2.map roundMsg) m) cmap =
      cmap ++ cat.map fun p => (p.1, p.2.map roundMsg) := by
  induction cat with
  | nil =>
    intro cmap _
    simp
  | cons p cat ih =>
    intro cmap hlt
    rcases List.pairwise_cons.mp hsorted with ⟨hp, htl⟩
    simp only [List.foldl_cons]
    rw [qmapInsert_gt p.1 (p.2.map roundMsg) cmap
        fun q hq => hlt q hq p (List.mem_cons_self _ _)]
    rw [ih htl (cmap ++ [(p.1, p.2.map roundMsg)]) ?_]
    · simp
    · intro q hq r hr
      rcases List.mem_append.mp hq with h | h
      · exact hlt q h r (List.mem_cons_of_mem _ hr)
      · simp only [List.mem_singleton] at h
        subst h
        exact hp r hr

theorem parse_writeTsTokens (cat : Catalog) (lang : String)
    (hsorted : cat.Pairwise fun a b => a.1 < b.1)
    (hnames : ∀ p ∈ cat, p.1 ≠ "") :
    parseTsTokens (writeTsTokens cat lang) =
      cat.map fun p => (p.1, p.2.map roundMsg) := by
  unfold parseTsTokens writeTsTokens tsHeaderTokens
  simp only [List.cons_append, List.nil_append, List.foldl_append,
    List.foldl_cons, List.foldl_nil]
  have h1 : tsStep ⟨.outer, []⟩ .startDocument = ⟨.outer, []⟩ := by
    simp [tsStep]
  have h2 : tsStep ⟨.outer, []⟩ (.dtd "<!DOCTYPE TS>") = ⟨.outer, []⟩ := by
    simp [tsStep]
  have h3 : tsStep ⟨.outer, []⟩
      (.startElement "TS" [("version", "2.1"), ("language", lang)]) =
      ⟨.outer, []⟩ := by
    simp [tsStep]
  rw [h1, h2, h3, tsFold_ctxsTokens cat [] hnames,
    tsFold_inserts cat hsorted [] (by simp)]
  simp [tsStep]

/-- A JSON value as `QJsonDocument`/`QJsonValue` present it.  Numeric
literals are kept raw: the tool never reads a number out of a response. -/
inductive Json where
  | null
  | bool (b : Bool)
  | num (raw : String)
  | str (s : String)
  | arr (elems : List Json)
  | obj (fields : List (String × Json))
deriving BEq, Repr

/-- `QJsonObject::operator[]`: the value of the first field with this key,
`QJsonValue::Null` when absent. -/
def jobjGet : List (String × Json) → String → Json
  | [], _ => .null
  | (k, v) :: rest, key => if k = key then v else jobjGet rest key

/-- `QJsonValue::isObject`. -/
def Json.isObj : Json → Bool
  | .obj _ => true
  | _ => false

/-- `QJsonValue::toArray`: the elements, or an empty array for
non-arrays. -/
def Json.toArr : Json → List Json
  | .arr xs => xs
  | _ => []

/-- `QJsonValue::toObject`: the fields, or an empty object for
non-objects. -/
def Json.toObjFields : Json → List (String × Json)
  | .obj fs => fs
  | _ => []

/-- `QJsonValue::toString`: the text, or `""` for non-strings. -/
def Json.toStr : Json → String
  | .str s => s
  | _ => ""

/-- JSON insignificant whitespace. -/
def isJsonWs (c : Char) : Bool :=
  c = ' ' || c = '\t' || c = '\n' || c = '\r'

/-- Hexadecimal digit value, `0` for non-hex characters. -/
def hexVal (c : Char) : Nat :=
  if 48 ≤ c.toNat ∧ c.toNat ≤ 57 then c.toNat - 48
  else if 97 ≤ c.toNat ∧ c.toNat ≤ 102 then c.toNat - 87
  else if 65 ≤ c.toNat ∧ c.toNat ≤ 70 then c.toNat - 55
  else 0

/-- Is this character allowed inside a JSON numeric literal? -/
def isNumChar (c : Char) : Bool :=
  isDigitChar c || c = '-' || c = '+' || c = '.' || c = 'e' || c = 'E'

/-- Parse a JSON string body (after the opening quote) up to the closing
quote, decoding the escape sequences. -/
def parseJsonString : List Char → Option (String × List Char)
  | [] => none
  | c :: rest =>
    if c = '\"' then some ("", rest)
    else if c = '\\' then
      match rest with
      | [] => none
      | e :: rest' =>
        if e = 'u' then
          match rest' with
          | h1 :: h2 :: h3 :: h4 :: rest'' =>
            (parseJsonString rest'').map fun r =>
              (⟨Char.ofNat
                (((hexVal h1 * 16 + hexVal h2) * 16 + hexVal h3) * 16 +
                  hexVal h4) :: r.1.data⟩, r.2)
          | _ => none
        else
          let d : Char :=
            if e = 'b' then Char.ofNat 8
            else if e = 'f' then Char.ofNat 12
            else if e = 'n' then '\n'
            else if e = 'r' then '\r'
            else if e = 't' then '\t'
            else e
          (parseJsonString rest').map fun r => (⟨d :: r.1.data⟩, r.2)
    else
      (parseJsonString rest).map fun r => (⟨c :: r.1.data⟩, r.2)

/-- The opening/closing brace characters. -/
def lbraceChar : Char := Char.ofNat 123

/-- See `lbraceChar`. -/
def rbraceChar : Char := Char.ofNat 125

mutual

/-- One JSON value, by recursion on a fuel bound (any bound at least the
input length suffices, as each nesting level consumes a character).
Returns the value and the unconsumed tail. -/
def parseJsonVal : Nat → List Char → Option (Json × List Char)
  | 0, _ => none
  | fuel + 1, cs =>
    match (cs.dropWhile isJsonWs : List Char) with
    | [] => none
    | c :: rest =>
      if c = 'n' then
        if rest.take 3 = ['u', 'l', 'l'] then some (.null, rest.drop 3)
        else none
      else if c = 't' then
        if rest.take 3 = ['r', 'u', 'e'] then some (.bool true, rest.drop 3)
        else none
      else if c = 'f' then
        if rest.take 4 = ['a', 'l', 's', 'e'] then
          some (.bool false, rest.drop 4)
        else none
      else if c = '\"' then
        (parseJsonString rest).map fun r => (.str r.1, r.2)
      else if c = '[' then
        match (rest.dropWhile isJsonWs : List Char) with
        | [] => none
        | c2 :: rest2 =>
          if c2 = ']' then some (.arr [], rest2)
          else
            (parseJsonArrElems fuel (c2 :: rest2)).map fun r => (.arr r.1, r.2)
      else if c = lbraceChar then
        match (rest.dropWhile isJsonWs : List Char) with
        | [] => none
        | c2 :: rest2 =>
          if c2 = rbraceChar then some (.obj [], rest2)
          else
            (parseJsonObjFields fuel (c2 :: rest2)).map fun r =>
              (.obj r.1, r.2)
      else if isNumChar c then
        some (.num ⟨c :: rest.takeWhile isNumChar⟩, rest.dropWhile isNumChar)
      else none

/-- The comma-separated elements of a JSON array up to and including the
closing bracket. -/
def parseJsonArrElems : Nat → List Char → Option (List Json × List Char)
  | 0, _ => none
  | fuel + 1, cs =>
    (parseJsonVal fuel cs).bind fun r =>
      match (r.2.dropWhile isJsonWs : List Char) with
      | [] => none
      | c :: rest2 =>
        if c = ',' then
          (parseJsonArrElems fuel rest2).map fun r2 => (r.1 :: r2.1, r2.2)
        else if c = ']' then some ([r.1], rest2)
        else none

/-- The comma-separated fields of a JSON object up to and including the
closing brace. -/
def parseJsonObjFields :
    Nat → List Char → Option (List (String × Json) × List Char)
  | 0, _ => none
  | fuel + 1, cs =>
    match (cs.dropWhile isJsonWs : List Char) with
    | [] => none
    | c :: rest =>
      if c = '\"' then
        (parseJsonString rest).bind fun rk =>
          match (rk.2.dropWhile isJsonWs : List Char) with
          | [] => none
          | c2 :: rest2 =>
            if c2 = ':' then
              (parseJsonVal fuel rest2).bind fun rv =>
                match (rv.2.dropWhile isJsonWs : List Char) with
                | [] => none
                | c3 :: rest3 =>
                  if c3 = ',' then
                    (parseJsonObjFields fuel rest3).map fun r2 =>
                      ((rk.1, rv.1) :: r2.1, r2.2)
                  else if c3 = rbraceChar then some ([(rk.1, rv.1)], rest3)
                  else none
            else none
      else none

end

/-- `QJsonValue::isArray`. -/
def Json.isArr : Json → Bool
  | .arr _ => true
  | _ => false

/-- `QJsonDocument::fromJson` on a string: parse one value, require the
whole input consumed and the root to be an object or an array (Qt accepts
only those as document roots); `none` is the null document. -/
def jsonParse (s : String) : Option Json :=
  match parseJsonVal (s.data.length + 1) s.data with
  | some r =>
    if (r.2.dropWhile isJsonWs : List Char) = [] ∧ (r.1.isObj || r.1.isArr) then
      some r.1
    else none
  | none => none

/-- The backtick character. -/
def btickChar : Char := Char.ofNat 96

/-- Split the input at the first occurrence of three consecutive backticks:
the part before the fence and the part after it. -/
def splitAtFence : List Char → Option (List Char × List Char)
  | [] => none
  | [_] => none
  | [_, _] => none
  | b1 :: b2 :: b3 :: rest =>
    if b1 = btickChar ∧ b2 = btickChar ∧ b3 = btickChar then some ([], rest)
    else
      (splitAtFence (b2 :: b3 :: rest)).map fun r => (b1 :: r.1, r.2)

/-- The code-block stripping of `processResponse`
(`translation.cpp:485-488`): the regular expression finds the first fence,
an optional `json` tag, greedy whitespace, then a lazy capture up to the
next fence with trailing whitespace outside the capture; when it matches,
the content is replaced by the capture. -/
def stripCodeFence (s : String) : String :=
  match splitAtFence s.data with
  | none => s
  | some r1 =>
    let afterTag :=
      if r1.2.take 4 = ['j', 's', 'o', 'n'] then r1.2.drop 4 else r1.2
    let body := afterTag.dropWhile isQtSpace
    match splitAtFence body with
    | none => s
    | some r2 => ⟨(r2.1.reverse.dropWhile isQtSpace).reverse⟩

/-- The mapping-building loop of `processResponse`
(`translation.cpp:499-508` and `main.cpp:256-265`): from the parsed
translations array, keep the object entries, read their `source` and
`translation` as strings, and insert into a `QMap` those with a non-empty
source (later duplicates replacing earlier ones). -/
def buildMapping (elems : List Json) : List (String × String) :=
  elems.foldl
    (fun mp v =>
      match v with
      | Json.obj fields =>
        let src := (jobjGet fields "source").toStr
        let tr := (jobjGet fields "translation").toStr
        if src = "" then mp else qmapInsert src tr mp
      | _ => mp)
    []

/-- The response-decoding stages of `processResponse`
(`translation.cpp:464-508`, identical in `main.cpp:224-265`), producing the
source-to-translation mapping, or `none` on each of the early-return
failure paths:

* `none` input: the transport returned no data (`responseData.isEmpty()`)
  or the bytes do not parse as JSON (`responseDoc.isNull()`),
* the document is not a JSON object,
* the object has no (or an empty) `choices` array,
* the first choice's `message.content`, after stripping an optional code
  fence, does not parse as a JSON array. -/
def responseMapping (responseData : Option Json) : Option (List (String × String)) :=
  match responseData with
  | none => none
  | some doc =>
    if doc.isObj = false then none
    else
      match (jobjGet doc.toObjFields "choices").toArr with
      | [] => none
      | first :: _ =>
        let messageObj := (jobjGet first.toObjFields "message").toObjFields
        let content := (jobjGet messageObj "content").toStr
        match jsonParse (stripCodeFence content) with
        | some (Json.arr elems) => some (buildMapping elems)
        | _ => none

/-- The merge loop of the final `processResponse`
(`translation.cpp:510-516`): every message of the given list whose source
is a key of the mapping gets the mapped translation and its unfinished
marker cleared; all other messages are untouched. -/
def applyMappingMsgs (mp : List (String × String)) (msgs : List MessageInfo) :
    List MessageInfo :=
  msgs.map fun msg =>
    match qmapFind? msg.source mp with
    | some v => { msg with translation := v, translationType := "" }
    | none => msg

/-- The merge loop of `main.cpp`'s `processResponse` (`main.cpp:267-273`):
as `applyMappingMsgs` but the unfinished marker is left as it was. -/
def applyMappingMsgsKeep (mp : List (String × String))
    (msgs : List MessageInfo) : List MessageInfo :=
  msgs.map fun msg =>
    match qmapFind? msg.source mp with
    | some v => { msg with translation := v }
    | none => msg

/-- `processResponse` of `translation.cpp:462-517`: decode the response
and merge the mapping into the given message list; on any decoding failure
return with the messages untouched. -/
def processResponseMsgs (r : Option Json) (msgs : List MessageInfo) :
    List MessageInfo :=
  match responseMapping r with
  | none => msgs
  | some mp => applyMappingMsgs mp msgs

/-- `processResponse` of `main.cpp:222-274`: decode the response and merge
the mapping into every context of the whole catalog (without clearing the
unfinished marker); on any decoding failure return with the catalog
untouched. -/
def processResponseCat (r : Option Json) (cat : Catalog) : Catalog :=
  match responseMapping r with
  | none => cat
  | some mp => cat.map fun p => (p.1, applyMappingMsgsKeep mp p.2)

/-- The merge step of the final pipeline for one batch, at catalog level.
Modelled from the spec: the entry point that drives
`translation.cpp:processResponse` is not part of the sources here (the
header still declares the older whole-catalog signature); §4.2 of the spec
has the pipeline send one batch per context and merge the returned mapping
into the messages of that same context, which is exactly a call of
`processResponse(responseData, contextMap[contextName])` through the
mutable reference. -/
def mergeStep (ctxName : String) (mp : List (String × String))
    (cat : Catalog) : Catalog :=
  qmapAdjust ctxName (applyMappingMsgs mp) cat

/-- One CSV data row of `exportToCsv` (`translation.cpp:217-223`): context
name, location filename, raw line number, source and translation, each
escaped (the numeric line field is written unescaped). -/
def exportRowLine (ctxName : String) (loc : Location) (m : MessageInfo) :
    String :=
  ⟨escCsvChars ctxName.data ++ ',' :: escCsvChars loc.filename.data ++
    ',' :: (intToString loc.line).data ++ ',' :: escCsvChars m.source.data ++
    ',' :: escCsvChars m.translation.data⟩

/-- The data rows of `exportToCsv` (`translation.cpp:212-225`): for every
context in map order, every message in list order, every location in list
order, one row.  (The header row and the byte-order mark precede these in
the file.) -/
def exportRows (cat : Catalog) : List String :=
  (cat.map fun p =>
    (p.2.map fun m => m.locations.map fun loc => exportRowLine p.1 loc m
      ).flatten).flatten

/-- The message-update loop of `importFromCsv` (`translation.cpp:332-346`):
overwrite the translation of the first message whose source matches, set
its marker to `"unfinished"` exactly when the new translation is empty, and
leave everything else alone.  When no message matches, the list is
returned unchanged (a warning is logged). -/
def updateFirstMatch (src tr : String) :
    List MessageInfo → List MessageInfo
  | [] => []
  | msg :: rest =>
    if msg.source = src then
      ⟨msg.locations, msg.source, tr,
        if tr = "" then "unfinished" else ""⟩ :: rest
    else msg :: updateFirstMatch src tr rest

/-- The per-row body of `importFromCsv` (`translation.cpp:298-352`), given
the parsed fields of one row: require at least five fields; trim them;
require the line field to be a valid `int`; skip the row if the context is
absent; otherwise update the first source match in that context.  The
locations built from the filename/line fields are dead code in the C++ and
never touch the catalog. -/
def importRowFields (cat : Catalog) (fields : List String) : Catalog :=
  if fields.length < 5 then cat
  else
    let name := qtrim (fields.getD 0 "")
    let lineStr := qtrim (fields.getD 2 "")
    let source := qtrim (fields.getD 3 "")
    let translation := qtrim (fields.getD 4 "")
    match qtToIntOk lineStr with
    | none => cat
    | some _ =>
      match qmapFind? name cat with
      | none => cat
      | some _ => qmapAdjust name (updateFirstMatch source translation) cat

/-- One line of the `importFromCsv` loop (`translation.cpp:293-302`): blank
lines (after trimming) are skipped, others are parsed and processed. -/
def importCsvLine (cat : Catalog) (line : String) : Catalog :=
  if qtrim line = "" then cat else importRowFields cat (parseCsvLine line)

/-- `importFromCsv` over the data rows of the file (the header line was
already consumed, `translation.cpp:290-291`). -/
def importCsvRows (cat : Catalog) (lines : List String) : Catalog :=
  lines.foldl importCsvLine cat

/-- The running state of `main`'s batch loop (`main.cpp:349-372`): the
catalog being updated in place, the batch being accumulated, and the
batches sent so far (each recorded at the moment of its
`sendTranslationBatch` call). -/
structure RunState where
  catalog : Catalog
  batch : List String
  sent : List (List String)

/-- The message read at a position of the catalog. -/
def getMsg (cat : Catalog) (k : String) (i : Nat) : MessageInfo :=
  (cat.msgsOf k).getD i ⟨[], "", "", ""⟩

/-- The body of `main`'s message loop (`main.cpp:355-364`) at one position:
read the message's current state; when its source is non-empty and its
translation still empty, append the source to the batch; when the batch
reaches the configured size, send it (the translator is the abstract
`respond` capability) and merge the response into the whole catalog with
`processResponse`, then clear the batch. -/
def scanMsgStep (respond : List String → Option Json) (size : Nat)
    (key : String) (st : RunState) (i : Nat) : RunState :=
  let msg := getMsg st.catalog key i
  if msg.source ≠ "" ∧ msg.translation = "" then
    let batch' := st.batch ++ [msg.source]
    if size ≤ batch'.length then
      { catalog := processResponseCat (respond batch') st.catalog,
        batch := [],
        sent := st.sent ++ [batch'] }
    else { st with batch := batch' }
  else st

/-- One context's scan (`main.cpp:353-365`): the messages in list order.
The loop iterates over the context/message structure of the initial
catalog — the merges of `processResponse` never add, remove or reorder
contexts or messages, they only rewrite translations in place, so the
structure read through the live iterators is the initial one. -/
def scanCtx (respond : List String → Option Json) (size : Nat)
    (st : RunState) (p : String × Nat) : RunState :=
  (List.range p.2).foldl (scanMsgStep respond size p.1) st

/-- `main`'s pipeline run (`main.cpp:349-372`): scan every context, then
send the remaining partial batch if any. -/
def runPipeline (respond : List String → Option Json) (size : Nat)
    (cat : Catalog) : RunState :=
  let st := (cat.map fun p => (p.1, p.2.length)).foldl
    (scanCtx respond size) ⟨cat, [], []⟩
  if st.batch = [] then st
  else
    { catalog := processResponseCat (respond st.batch) st.catalog,
      batch := [],
      sent := st.sent ++ [st.batch] }

/-- All phrases a run sent, in order. -/
def phrasesSent (st : RunState) : List String :=
  st.sent.flatten

/-- The distinct non-empty source texts with empty translation, as the scan
meets them: the phrases the batching loop is after. -/
def eligibleSources (cat : Catalog) : List String :=
  (cat.map fun p =>
    (p.2.filter fun m => decide (m.source ≠ "" ∧ m.translation = "")).map
      MessageInfo.source).flatten

theorem qmapFind?_mapVal {α β : Type} (f : α → β) (k : String) :
    ∀ (m : List (String × α)),
    qmapFind? k (m.map fun p => (p.1, f p.2)) = (qmapFind? k m).map f := by
  intro m
  induction m with
  | nil => rfl
  | cons p rest ih =>
    obtain ⟨k', v⟩ := p
    by_cases h : k' = k
    · simp [qmapFind?, h]
    · simp [qmapFind?, h, ih]

theorem getD_map_lt {α β : Type} (f : α → β) (l : List α) (i : Nat)
    (h : i < l.length) (d : α) (d' : β) :
    (l.map f).getD i d' = f (l.getD i d) := by
  rw [List.getD_eq_getElem?_getD, List.getD_eq_getElem?_getD,
    List.getElem?_map, List.getElem?_eq_getElem h]
  simp

/-- C8: after the reset operation (the in-memory pass of
`clearTranslation`), the contexts are unchanged, and every message of
every context has an empty translation and state `Unfinished`, while its
source text and location list are exactly what they were before. -/
theorem c8_reset_clears_translations (cat : Catalog) :
    qmapKeys (clearCatalog cat) = qmapKeys cat ∧
    ∀ (k : String) (i : Nat), i < (cat.msgsOf k).length →
      (getMsg (clearCatalog cat) k i).translation = "" ∧
      (getMsg (clearCatalog cat) k i).state = .Unfinished ∧
      (getMsg (clearCatalog cat) k i).source = (getMsg cat k i).source ∧
      (getMsg (clearCatalog cat) k i).locations = (getMsg cat k i).locations := by
  constructor
  · unfold qmapKeys clearCatalog
    simp
  · intro k i hi
    unfold getMsg Catalog.msgsOf at *
    unfold clearCatalog
    rw [qmapFind?_mapVal]
    cases hfind : qmapFind? k cat with
    | none =>
      rw [hfind] at hi
      simp at hi
    | some msgs =>
      rw [hfind] at hi
      simp only [Option.getD_some] at hi
      simp only [Option.map_some', Option.getD_some, hfind]
      rw [getD_map_lt clearMsg msgs i hi ⟨[], "", "", ""⟩]
      refine ⟨rfl, ?_, rfl, rfl⟩
      simp [clearMsg, MessageInfo.state]

/-- Witness for C8 at a concrete catalog. -/
theorem c8_reset_clears_translations_witness :
    (0 : Nat) < (Catalog.msgsOf [("A", [⟨[⟨"f.cpp", 1⟩], "Hi", "Salut", ""⟩])]
      "A").length ∧
    (getMsg (clearCatalog [("A", [⟨[⟨"f.cpp", 1⟩], "Hi", "Salut", ""⟩])])
      "A" 0).translation = "" := by
  refine ⟨by decide, ?_⟩
  exact ((c8_reset_clears_translations
    [("A", [⟨[⟨"f.cpp", 1⟩], "Hi", "Salut", ""⟩])]).2 "A" 0 (by decide)).1

/-- C10, counterexample: the claim quantifies over every list of fields,
but for the empty list the escape-and-join of no fields is the empty line,
and `parseCsvLine` of the empty line yields one empty field, not no
fields. -/
theorem c10_empty_list_counterexample :
    parseCsvLine (csvLineOfFields []) = [""] ∧
    parseCsvLine (csvLineOfFields []) ≠ [] := by
  decide

/-- C10 as amended: for every non-empty list of fields none of which
contains a newline, parsing the line obtained by escaping each field as
export does and joining with commas returns exactly the original fields. -/
theorem c10_csv_roundtrip (fields : List String) (hne : fields ≠ [])
    (_hnl : ∀ f ∈ fields, ¬ ('\n' ∈ f.data)) :
    parseCsvLine (csvLineOfFields fields) = fields :=
  parseCsvLine_ofFields fields hne

/-- Witness for C10 at fields exercising quoting, quote doubling and the
empty field. -/
theorem c10_csv_roundtrip_witness :
    (["a,b", "x\"y", "", "plain"] : List String) ≠ [] ∧
    (∀ f ∈ (["a,b", "x\"y", "", "plain"] : List String), ¬ ('\n' ∈ f.data)) ∧
    parseCsvLine (csvLineOfFields ["a,b", "x\"y", "", "plain"]) =
      ["a,b", "x\"y", "", "plain"] :=
  ⟨by decide, by decide,
    c10_csv_roundtrip ["a,b", "x\"y", "", "plain"] (by decide) (by decide)⟩

theorem qmapOfList_sorted {α : Type} (ps : List (String × α)) :
    (qmapOfList ps).Pairwise fun a b => a.1 < b.1 := by
  suffices h : ∀ (m : List (String × α)), m.Pairwise (fun a b => a.1 < b.1) →
      (ps.foldl (fun m p => qmapInsert p.1 p.2 m) m).Pairwise
        (fun a b => a.1 < b.1) by
    exact h [] (by simp)
  induction ps with
  | nil =>
    intro m hm
    exact hm
  | cons p ps ih =>
    intro m hm
    exact ih _ (qmapInsert_keys_sorted p.1 p.2 m hm)

theorem qmapInsert_mem_keys_iff {α : Type} (k : String) (v : α) (n : String) :
    ∀ (m : List (String × α)),
    (n ∈ qmapKeys (qmapInsert k v m)) ↔ (n = k ∨ n ∈ qmapKeys m) := by
  intro m
  induction m with
  | nil => simp [qmapInsert, qmapKeys]
  | cons p rest ih =>
    obtain ⟨k', v'⟩ := p
    simp only [qmapInsert]
    split_ifs with h1 h2
    · simp [qmapKeys]
    · subst h2
      simp [qmapKeys]
    · simp only [qmapKeys, List.map_cons] at ih ⊢
      constructor
      · intro h
        rcases List.mem_cons.mp h with h | h
        · exact Or.inr (List.mem_cons.mpr (Or.inl h))
        · rcases ih.mp h with h | h
          · exact Or.inl h
          · exact Or.inr (List.mem_cons_of_mem _ h)
      · intro h
        rcases h with h | h
        · exact List.mem_cons_of_mem _ (ih.mpr (Or.inl h))
        · rcases List.mem_cons.mp h with h | h
          · exact List.mem_cons.mpr (Or.inl h)
          · exact List.mem_cons_of_mem _ (ih.mpr (Or.inr h))

theorem qmapOfList_mem_keys {α : Type} (ps : List (String × α)) (n : String) :
    n ∈ qmapKeys (qmapOfList ps) ↔ n ∈ ps.map Prod.fst := by
  suffices h : ∀ (m : List (String × α)),
      (n ∈ qmapKeys (ps.foldl (fun m p => qmapInsert p.1 p.2 m) m) ↔
        n ∈ qmapKeys m ∨ n ∈ ps.map Prod.fst) by
    have := h []
    simpa [qmapKeys] using this
  induction ps with
  | nil =>
    intro m
    simp
  | cons p ps ih =>
    intro m
    simp only [List.foldl_cons, List.map_cons]
    rw [ih]
    rw [qmapInsert_mem_keys_iff]
    constructor
    · rintro (⟨h | h⟩ | h)
      · exact Or.inr (List.mem_cons.mpr (Or.inl h))
      · exact Or.inl h
      · exact Or.inr (List.mem_cons_of_mem _ h)
    · rintro (h | h)
      · exact Or.inl (Or.inr h)
      · rcases List.mem_cons.mp h with h | h
        · exact Or.inl (Or.inl h)
        · exact Or.inr h

theorem count_ctx_textElem (name text : String) (h : ¬ (name = "context")) :
    (textElemTokens name text).count (XmlToken.startElement "context" []) = 0 := by
  by_cases ht : text = "" <;>
    simp [textElemTokens, ht, List.count_cons, List.count_append, h]

theorem count_ctx_locsTokens (locs : List Location) :
    ((locs.map locTokens).flatten).count (XmlToken.startElement "context" []) = 0 := by
  induction locs with
  | nil => simp
  | cons loc locs ih =>
    simp [locTokens, List.count_append, List.count_cons, ih]

theorem count_ctx_msgTokens (m : MessageInfo) :
    (msgTokens m).count (XmlToken.startElement "context" []) = 0 := by
  unfold msgTokens
  simp only [List.count_append, List.count_cons, count_ctx_locsTokens]
  rw [count_ctx_textElem "source" m.source (by decide)]
  by_cases ht : m.translation = "" <;> simp [ht, List.count_cons]

theorem count_ctx_msgsTokens (ms : List MessageInfo) :
    ((ms.map msgTokens).flatten).count (XmlToken.startElement "context" []) = 0 := by
  induction ms with
  | nil => simp
  | cons m ms ih => simp [List.count_append, count_ctx_msgTokens, ih]

theorem count_ctx_ctxTokens (p : String × List MessageInfo) :
    (ctxTokens p).count (XmlToken.startElement "context" []) = 1 := by
  unfold ctxTokens
  simp only [List.count_append, List.count_cons, count_ctx_msgsTokens]
  rw [count_ctx_textElem "name" p.1 (by decide)]
  simp

theorem count_ctx_flatten (cat : Catalog) :
    ((cat.map ctxTokens).flatten).count (XmlToken.startElement "context" []) =
      cat.length := by
  induction cat with
  | nil => simp
  | cons p cat ih =>
    simp [List.count_append, count_ctx_ctxTokens, ih]
    omega

/-- C3: for any sequence of context insertions, `writeTsFile` emits the
document head, then exactly one context block per stored context — the
count of `<context>` starts equals the number of contexts — in
lexicographic order of context name regardless of insertion order (the
keys of the map built by `QMap::insert` are strictly sorted and are
exactly the inserted names), and each context block lists its messages in
their in-memory list order. -/
theorem c3_serialize_order (ps : List (String × List MessageInfo))
    (lang : String) :
    writeTsTokens (qmapOfList ps) lang =
      tsHeaderTokens lang ++ ((qmapOfList ps).map ctxTokens).flatten ++
        [XmlToken.endElement "TS", XmlToken.endDocument] ∧
    (qmapKeys (qmapOfList ps)).Pairwise (· < ·) ∧
    (∀ n, n ∈ qmapKeys (qmapOfList ps) ↔ n ∈ ps.map Prod.fst) ∧
    (writeTsTokens (qmapOfList ps) lang).count
      (XmlToken.startElement "context" []) = (qmapOfList ps).length ∧
    ∀ p ∈ qmapOfList ps, ctxTokens p =
      [XmlToken.startElement "context" []] ++ textElemTokens "name" p.1 ++
        (p.2.map msgTokens).flatten ++ [XmlToken.endElement "context"] := by
  refine ⟨rfl, ?_, qmapOfList_mem_keys ps, ?_, fun p _ => rfl⟩
  · have := qmapOfList_sorted ps
    unfold qmapKeys
    exact List.pairwise_map.mpr this
  · unfold writeTsTokens
    simp only [List.count_append, count_ctx_flatten]
    have hhead : (tsHeaderTokens lang).count
        (XmlToken.startElement "context" []) = 0 := by
      simp [tsHeaderTokens, List.count_cons]
    have htail : ([XmlToken.endElement "TS", XmlToken.endDocument]).count
        (XmlToken.startElement "context" []) = 0 := by
      decide
    omega

/-- Witness for C3 at two contexts inserted in reverse order. -/
theorem c3_serialize_order_witness :
    qmapKeys (qmapOfList [("B", ([] : List MessageInfo)), ("A", [])]) =
      ["A", "B"] ∧
    (writeTsTokens (qmapOfList [("B", ([] : List MessageInfo)), ("A", [])])
      "en").count (XmlToken.startElement "context" []) =
        (qmapOfList [("B", ([] : List MessageInfo)), ("A", [])]).length := by
  have hAB : ("A" : String) < "B" := by
    simp
    decide
  refine ⟨?_, (c3_serialize_order [("B", []), ("A", [])] "en").2.2.2.1⟩
  simp [qmapOfList, qmapInsert, qmapKeys, hAB]

theorem qtToInt_intToString (i : Int)
    (h1 : -2147483648 ≤ i) (h2 : i ≤ 2147483647) :
    qtToInt (intToString i) = i := by
  unfold qtToInt
  rw [qtToIntOk_intToString i h1 h2]
  rfl

theorem roundMsg_eq_canonMsg (m : MessageInfo)
    (h : ∀ loc ∈ m.locations,
      -2147483648 ≤ loc.line ∧ loc.line ≤ 2147483647) :
    roundMsg m = canonMsg m := by
  unfold roundMsg canonMsg
  have hlocs : (m.locations.map fun loc =>
      (⟨loc.filename, qtToInt (intToString loc.line)⟩ : Location)) =
      m.locations := by
    conv_rhs => rw [← List.map_id m.locations]
    apply List.map_congr_left
    intro loc hloc
    have := h loc hloc
    simp [qtToInt_intToString loc.line this.1 this.2]
  rw [hlocs]

/-- C2: for every catalog (a `QMap`, so with strictly sorted keys and
32-bit line numbers) whose context names are non-empty, parsing the token
stream produced by `writeTsFile` yields the same contexts in the same
(lexicographic) order, and per context the same messages with identical
source text, translation text and location lists; only the `type` marker
is re-derived from emptiness of the translation (`canonMsg`). -/
theorem c2_ts_roundtrip (cat : Catalog) (lang : String)
    (hsorted : cat.Pairwise fun a b => a.1 < b.1)
    (hnames : ∀ p ∈ cat, p.1 ≠ "")
    (hlines : ∀ p ∈ cat, ∀ m ∈ p.2, ∀ loc ∈ m.locations,
      -2147483648 ≤ loc.line ∧ loc.line ≤ 2147483647) :
    parseTsFile (writeTsFile cat lang) =
      cat.map fun p => (p.1, p.2.map canonMsg) := by
  show parseTsTokens (writeTsTokens cat lang) = _
  rw [parse_writeTsTokens cat lang hsorted hnames]
  apply List.map_congr_left
  intro p hp
  congr 1
  apply List.map_congr_left
  intro m hm
  exact roundMsg_eq_canonMsg m (hlines p hp m hm)

/-- Witness for C2 at a one-context, two-message catalog with Unicode
text, a finished and an unfinished message. -/
theorem c2_ts_roundtrip_witness :
    (([("Dialog", [⟨[⟨"d.cpp", 7⟩], "Héllo", "Bonjour", ""⟩,
        ⟨[], "Save", "", "unfinished"⟩])] : Catalog).Pairwise
      fun a b => a.1 < b.1) ∧
    (∀ p ∈ ([("Dialog", [⟨[⟨"d.cpp", 7⟩], "Héllo", "Bonjour", ""⟩,
        ⟨[], "Save", "", "unfinished"⟩])] : Catalog), p.1 ≠ "") ∧
    parseTsFile (writeTsFile
      [("Dialog", [⟨[⟨"d.cpp", 7⟩], "Héllo", "Bonjour", ""⟩,
        ⟨[], "Save", "", "unfinished"⟩])] "fr_FR") =
      ([("Dialog", [⟨[⟨"d.cpp", 7⟩], "Héllo", "Bonjour", ""⟩,
        ⟨[], "Save", "", "unfinished"⟩])] : Catalog).map
        fun p => (p.1, p.2.map canonMsg) :=
  ⟨by decide, by decide,
   c2_ts_roundtrip
     [("Dialog", [⟨[⟨"d.cpp", 7⟩], "Héllo", "Bonjour", ""⟩,
       ⟨[], "Save", "", "unfinished"⟩])] "fr_FR"
     (by decide) (by decide) (by decide)⟩

/-- C9, counterexample: a stream whose well-formed prefix holds one
complete context and which then reports a structural error.  `parseTsFile`
reports the error but returns the partially populated catalog with that
context, not an empty one. -/
theorem c9_error_counterexample :
    TsStream.hasError
      ⟨tsHeaderTokens "en" ++ ctxTokens ("Ctx", [⟨[], "Save", "", "unfinished"⟩]),
        true⟩ = true ∧
    parseTsFile
      ⟨tsHeaderTokens "en" ++ ctxTokens ("Ctx", [⟨[], "Save", "", "unfinished"⟩]),
        true⟩ = [("Ctx", [⟨[], "Save", "", "unfinished"⟩])] ∧
    parseTsFile
      ⟨tsHeaderTokens "en" ++ ctxTokens ("Ctx", [⟨[], "Save", "", "unfinished"⟩]),
        true⟩ ≠ ([] : Catalog) := by
  refine ⟨rfl, by decide, by decide⟩

/-- C9 as amended: on an input whose reader reports a structural error at
the top level of the document — between context elements — `parseTsFile`
does not throw: its outer loop (the only one testing `atEnd`/`hasError`)
stops at the error, a warning is logged, and the catalog built from the
contexts completed before the error is returned, partially populated
rather than empty.  When the error strikes inside an open context or
message element, however, the inner loops test only for the closing end
tag while `readNext` yields `Invalid` forever, so neither loop ever exits
— for every iteration bound the loop is still running — and `parseTsFile`
does not return at all. -/
theorem c9_error_partial_catalog (cat : Catalog) (lang : String)
    (hsorted : cat.Pairwise fun a b => a.1 < b.1)
    (hnames : ∀ p ∈ cat, p.1 ≠ "")
    (hlines : ∀ p ∈ cat, ∀ m ∈ p.2, ∀ loc ∈ m.locations,
      -2147483648 ≤ loc.line ∧ loc.line ≤ 2147483647) :
    (TsStream.hasError ⟨tsHeaderTokens lang ++ (cat.map ctxTokens).flatten,
      true⟩ = true ∧
    parseTsFile ⟨tsHeaderTokens lang ++ (cat.map ctxTokens).flatten, true⟩ =
      cat.map fun p => (p.1, p.2.map canonMsg)) ∧
    (∀ fuel, ctxLoopAfterError fuel .invalid = none) ∧
    (∀ fuel, msgLoopAfterError fuel .invalid = none) := by
  refine ⟨⟨rfl, ?_⟩, ?_, ?_⟩
  case refine_2 =>
    intro fuel
    induction fuel with
    | zero => rfl
    | succ n ih =>
      show (if isEndContextTok .invalid then some () else
        ctxLoopAfterError n (errReadNext ())) = none
      rw [if_neg (by decide)]
      exact ih
  case refine_3 =>
    intro fuel
    induction fuel with
    | zero => rfl
    | succ n ih =>
      show (if isEndMessageTok .invalid then some () else
        msgLoopAfterError n (errReadNext ())) = none
      rw [if_neg (by decide)]
      exact ih
  show parseTsTokens (tsHeaderTokens lang ++ (cat.map ctxTokens).flatten) = _
  unfold parseTsTokens tsHeaderTokens
  simp only [List.cons_append, List.nil_append, List.foldl_append,
    List.foldl_cons, List.foldl_nil]
  have h1 : tsStep ⟨.outer, []⟩ .startDocument = ⟨.outer, []⟩ := by
    simp [tsStep]
  have h2 : tsStep ⟨.outer, []⟩ (.dtd "<!DOCTYPE TS>") = ⟨.outer, []⟩ := by
    simp [tsStep]
  have h3 : tsStep ⟨.outer, []⟩
      (.startElement "TS" [("version", "2.1"), ("language", lang)]) =
      ⟨.outer, []⟩ := by
    simp [tsStep]
  rw [h1, h2, h3, tsFold_ctxsTokens cat [] hnames,
    tsFold_inserts cat hsorted [] (by simp)]
  simp only [List.nil_append]
  apply List.map_congr_left
  intro p hp
  congr 1
  apply List.map_congr_left
  intro m hm
  exact roundMsg_eq_canonMsg m (hlines p hp m hm)

/-- Witness for C9's amended statement at a one-context catalog, with the
loop divergence observed at a concrete iteration bound. -/
theorem c9_error_partial_catalog_witness :
    parseTsFile ⟨tsHeaderTokens "en" ++
      (([("Win", [⟨[], "OK", "Oui", ""⟩])] : Catalog).map ctxTokens).flatten,
      true⟩ =
      (([("Win", [⟨[], "OK", "Oui", ""⟩])] : Catalog).map
        fun p => (p.1, p.2.map canonMsg)) ∧
    ctxLoopAfterError 5 .invalid = none ∧
    msgLoopAfterError 5 .invalid = none :=
  ⟨(c9_error_partial_catalog [("Win", [⟨[], "OK", "Oui", ""⟩])] "en"
      (by decide) (by decide) (by decide)).1.2,
   (c9_error_partial_catalog [("Win", [⟨[], "OK", "Oui", ""⟩])] "en"
      (by decide) (by decide) (by decide)).2.1 5,
   (c9_error_partial_catalog [("Win", [⟨[], "OK", "Oui", ""⟩])] "en"
      (by decide) (by decide) (by decide)).2.2 5⟩

theorem qmapAdjust_find_other {α : Type} (k c : String) (f : α → α)
    (h : ¬ (k = c)) :
    ∀ (m : List (String × α)), qmapFind? k (qmapAdjust c f m) = qmapFind? k m := by
  intro m
  induction m with
  | nil => rfl
  | cons p rest ih =>
    obtain ⟨k', v⟩ := p
    by_cases hk : k' = c
    · subst hk
      have hck : ¬ (k' = k) := fun he => h he.symm
      simp [qmapAdjust, qmapFind?, hck]
    · simp [qmapAdjust, qmapFind?, hk, ih]

theorem qmapAdjust_find_self {α : Type} (c : String) (f : α → α) :
    ∀ (m : List (String × α)),
    qmapFind? c (qmapAdjust c f m) = (qmapFind? c m).map f := by
  intro m
  induction m with
  | nil => rfl
  | cons p rest ih =>
    obtain ⟨k', v⟩ := p
    by_cases hk : k' = c
    · simp [qmapAdjust, qmapFind?, hk]
    · simp [qmapAdjust, qmapFind?, hk, ih]

/-- C1, counterexample: contexts `A` and `B` both hold an untranslated
message with source `OK`; the pipeline's merge step for a batch of context
`A` with the response mapping `OK to X` leaves the message of context `B`
completely unmodified, while the claim requires every message of every
context whose source is a key of the mapping to end with the mapped
translation and state Finished. -/
theorem c1_cross_context_counterexample :
    getMsg (mergeStep "A" [("OK", "X")]
      [("A", [⟨[], "OK", "", "unfinished"⟩]),
       ("B", [⟨[], "OK", "", "unfinished"⟩])]) "B" 0 =
      ⟨[], "OK", "", "unfinished"⟩ ∧
    (getMsg (mergeStep "A" [("OK", "X")]
      [("A", [⟨[], "OK", "", "unfinished"⟩]),
       ("B", [⟨[], "OK", "", "unfinished"⟩])]) "B" 0).translation ≠ "X" ∧
    (getMsg (mergeStep "A" [("OK", "X")]
      [("A", [⟨[], "OK", "", "unfinished"⟩]),
       ("B", [⟨[], "OK", "", "unfinished"⟩])]) "B" 0).state ≠ .Finished := by
  decide

/-- C1 as amended: the merge step of one batch updates exactly the batch's
own context: there, every message whose source is a key of the mapping gets
the mapped translation with the unfinished marker cleared (state
`Finished`), every message whose source is not a key is unmodified — and
every other context of the catalog is left completely unmodified. -/
theorem c1_merge_step (ctxName : String) (mp : List (String × String))
    (cat : Catalog) :
    (∀ k, ¬ (k = ctxName) →
      qmapFind? k (mergeStep ctxName mp cat) = qmapFind? k cat) ∧
    (∀ i, i < (Catalog.msgsOf cat ctxName).length →
      (∀ v, qmapFind? (getMsg cat ctxName i).source mp = some v →
        getMsg (mergeStep ctxName mp cat) ctxName i =
          ⟨(getMsg cat ctxName i).locations, (getMsg cat ctxName i).source,
            v, ""⟩ ∧
        (getMsg (mergeStep ctxName mp cat) ctxName i).state = .Finished) ∧
      (qmapFind? (getMsg cat ctxName i).source mp = none →
        getMsg (mergeStep ctxName mp cat) ctxName i = getMsg cat ctxName i)) := by
  constructor
  · intro k hk
    exact qmapAdjust_find_other k ctxName _ hk cat
  · intro i hi
    unfold getMsg Catalog.msgsOf at *
    unfold mergeStep
    rw [qmapAdjust_find_self]
    cases hfind : qmapFind? ctxName cat with
    | none =>
      rw [hfind] at hi
      simp at hi
    | some msgs =>
      rw [hfind] at hi
      simp only [Option.getD_some] at hi
      simp only [Option.map_some', Option.getD_some]
      unfold applyMappingMsgs
      rw [getD_map_lt _ msgs i hi ⟨[], "", "", ""⟩]
      constructor
      · intro v hv
        rw [hv]
        exact ⟨rfl, by simp [MessageInfo.state]⟩
      · intro hv
        rw [hv]

/-- Witness for C1's amended statement: merging `OK to X` into context `A`
updates `A`'s message and leaves context `B` alone. -/
theorem c1_merge_step_witness :
    ¬ (("B" : String) = "A") ∧
    qmapFind? "B" (mergeStep "A" [("OK", "X")]
      [("A", [⟨[], "OK", "", "unfinished"⟩]),
       ("B", [⟨[], "OK", "", "unfinished"⟩])]) =
      qmapFind? "B"
        [("A", [⟨[], "OK", "", "unfinished"⟩]),
         ("B", [⟨[], "OK", "", "unfinished"⟩])] ∧
    getMsg (mergeStep "A" [("OK", "X")]
      [("A", [⟨[], "OK", "", "unfinished"⟩]),
       ("B", [⟨[], "OK", "", "unfinished"⟩])]) "A" 0 =
      ⟨[], "OK", "X", ""⟩ :=
  ⟨by decide,
   (c1_merge_step "A" [("OK", "X")]
     [("A", [⟨[], "OK", "", "unfinished"⟩]),
      ("B", [⟨[], "OK", "", "unfinished"⟩])]).1 "B" (by decide),
   (((c1_merge_step "A" [("OK", "X")]
     [("A", [⟨[], "OK", "", "unfinished"⟩]),
      ("B", [⟨[], "OK", "", "unfinished"⟩])]).2 0 (by decide)).1 "X"
        (by decide)).1⟩

theorem updateFirstMatch_no_match (src tr : String) :
    ∀ (msgs : List MessageInfo), (∀ m ∈ msgs, ¬ (m.source = src)) →
    updateFirstMatch src tr msgs = msgs := by
  intro msgs
  induction msgs with
  | nil =>
    intro _
    rfl
  | cons m rest ih =>
    intro h
    rw [updateFirstMatch, if_neg (h m (List.mem_cons_self _ _))]
    rw [ih fun m' hm' => h m' (List.mem_cons_of_mem _ hm')]

theorem updateFirstMatch_at (src tr : String) :
    ∀ (msgs : List MessageInfo) (i : Nat), i < msgs.length →
    (∀ j, j < i → ¬ ((msgs.getD j ⟨[], "", "", ""⟩).source = src)) →
    (msgs.getD i ⟨[], "", "", ""⟩).source = src →
    updateFirstMatch src tr msgs =
      msgs.take i ++
        ⟨(msgs.getD i ⟨[], "", "", ""⟩).locations,
         (msgs.getD i ⟨[], "", "", ""⟩).source, tr,
         if tr = "" then "unfinished" else ""⟩ :: msgs.drop (i + 1) := by
  intro msgs
  induction msgs with
  | nil =>
    intro i hi
    simp at hi
  | cons m rest ih =>
    intro i hi hbefore hx
    cases i with
    | zero =>
      simp only [List.getD_cons_zero] at hx
      simp only [List.take_zero, List.drop_succ_cons, List.drop_zero,
        List.nil_append, List.getD_cons_zero]
      rw [updateFirstMatch, if_pos hx]
    | succ i =>
      have hm : ¬ (m.source = src) := by
        have := hbefore 0 (Nat.succ_pos i)
        simpa using this
      simp only [List.getD_cons_succ] at hx ⊢
      rw [updateFirstMatch, if_neg hm]
      simp only [List.length_cons, Nat.add_lt_add_iff_right] at hi
      rw [ih i hi (fun j hj => by
        have := hbefore (j + 1) (Nat.add_lt_add_right hj 1)
        simpa using this) hx]
      simp [List.take_succ_cons, List.drop_succ_cons]

theorem qmapAdjust_fixed {α : Type} (c : String) (f : α → α) :
    ∀ (m : List (String × α)) (v : α), qmapFind? c m = some v → f v = v →
    qmapAdjust c f m = m := by
  intro m
  induction m with
  | nil =>
    intro v hv _
    simp [qmapFind?] at hv
  | cons p rest ih =>
    intro v hv hf
    obtain ⟨k', v'⟩ := p
    by_cases hk : k' = c
    · subst hk
      rw [qmapFind?, if_pos rfl] at hv
      injection hv with hv
      subst hv
      simp [qmapAdjust, hf]
    · rw [qmapFind?, if_neg hk] at hv
      simp [qmapAdjust, hk, ih v hv hf]

/-- C6: for every catalog and every imported row with at least the five
fields and a valid integer line field: a row whose (trimmed) context name
is absent, or whose context holds no message with exactly the (trimmed)
source, is skipped and the catalog is unchanged — import never creates
contexts or messages; otherwise exactly the first matching message has its
translation overwritten with the row's (trimmed) translation, its state
becomes Finished when that translation is non-empty and Unfinished when it
is empty, its source and locations are kept, and every other message and
every other context is unchanged. -/
theorem c6_import_row (cat : Catalog) (fields : List String)
    (hlen : ¬ (fields.length < 5))
    (hline : (qtToIntOk (qtrim (fields.getD 2 ""))).isSome = true) :
    (qmapFind? (qtrim (fields.getD 0 "")) cat = none →
      importRowFields cat fields = cat) ∧
    (∀ msgs, qmapFind? (qtrim (fields.getD 0 "")) cat = some msgs →
      ((∀ m ∈ msgs, ¬ (m.source = qtrim (fields.getD 3 ""))) →
        importRowFields cat fields = cat) ∧
      (∀ i, i < msgs.length →
        (∀ j, j < i →
          ¬ ((msgs.getD j ⟨[], "", "", ""⟩).source =
            qtrim (fields.getD 3 ""))) →
        (msgs.getD i ⟨[], "", "", ""⟩).source = qtrim (fields.getD 3 "") →
        qmapFind? (qtrim (fields.getD 0 "")) (importRowFields cat fields) =
          some (msgs.take i ++
            ⟨(msgs.getD i ⟨[], "", "", ""⟩).locations,
             (msgs.getD i ⟨[], "", "", ""⟩).source,
             qtrim (fields.getD 4 ""),
             if qtrim (fields.getD 4 "") = "" then "unfinished" else ""⟩ ::
            msgs.drop (i + 1)) ∧
        (MessageInfo.state
          ⟨(msgs.getD i ⟨[], "", "", ""⟩).locations,
           (msgs.getD i ⟨[], "", "", ""⟩).source,
           qtrim (fields.getD 4 ""),
           if qtrim (fields.getD 4 "") = "" then "unfinished" else ""⟩ =
          if qtrim (fields.getD 4 "") = "" then TrState.Unfinished
          else TrState.Finished) ∧
        (∀ k, ¬ (k = qtrim (fields.getD 0 "")) →
          qmapFind? k (importRowFields cat fields) = qmapFind? k cat))) := by
  obtain ⟨n, hn⟩ := Option.isSome_iff_exists.mp hline
  have hunfold : importRowFields cat fields =
      match qmapFind? (qtrim (fields.getD 0 "")) cat with
      | none => cat
      | some _ => qmapAdjust (qtrim (fields.getD 0 ""))
          (updateFirstMatch (qtrim (fields.getD 3 ""))
            (qtrim (fields.getD 4 ""))) cat := by
    unfold importRowFields
    rw [if_neg hlen]
    simp only [hn]
  constructor
  · intro hnone
    rw [hunfold, hnone]
  · intro msgs hfind
    have hunfold2 : importRowFields cat fields =
        qmapAdjust (qtrim (fields.getD 0 ""))
          (updateFirstMatch (qtrim (fields.getD 3 ""))
            (qtrim (fields.getD 4 ""))) cat := by
      rw [hunfold, hfind]
    constructor
    · intro hnomatch
      rw [hunfold2]
      exact qmapAdjust_fixed _ _ cat msgs hfind
        (updateFirstMatch_no_match _ _ msgs hnomatch)
    · intro i hi hbefore hx
      refine ⟨?_, ?_, ?_⟩
      · rw [hunfold2, qmapAdjust_find_self, hfind]
        simp only [Option.map_some']
        rw [updateFirstMatch_at _ _ msgs i hi hbefore hx]
      · by_cases ht : qtrim (fields.getD 4 "") = "" <;>
          simp [MessageInfo.state, ht]
      · intro k hk
        rw [hunfold2]
        exact qmapAdjust_find_other k _ _ hk cat

/-- Witness for C6: a row updating the first of two `Save` messages in
context `Win`, leaving the second and the other context alone. -/
theorem c6_import_row_witness :
    ¬ ((["Win", "f.cpp", "3", "Save", "Guardar"] : List String).length < 5) ∧
    (qtToIntOk (qtrim ((["Win", "f.cpp", "3", "Save", "Guardar"] :
      List String).getD 2 ""))).isSome = true ∧
    qmapFind? "Win" (importRowFields
      [("Other", [⟨[], "Save", "", "unfinished"⟩]),
       ("Win", [⟨[], "Open", "", "unfinished"⟩,
                ⟨[⟨"f.cpp", 3⟩], "Save", "", "unfinished"⟩,
                ⟨[], "Save", "x", ""⟩])]
      ["Win", "f.cpp", "3", "Save", "Guardar"]) =
      some [⟨[], "Open", "", "unfinished"⟩,
            ⟨[⟨"f.cpp", 3⟩], "Save", "Guardar", ""⟩,
            ⟨[], "Save", "x", ""⟩] ∧
    qmapFind? "Other" (importRowFields
      [("Other", [⟨[], "Save", "", "unfinished"⟩]),
       ("Win", [⟨[], "Open", "", "unfinished"⟩,
                ⟨[⟨"f.cpp", 3⟩], "Save", "", "unfinished"⟩,
                ⟨[], "Save", "x", ""⟩])]
      ["Win", "f.cpp", "3", "Save", "Guardar"]) =
      some [⟨[], "Save", "", "unfinished"⟩] := by
  refine ⟨by decide, by decide, ?_, ?_⟩
  · have h := (((c6_import_row
      [("Other", [⟨[], "Save", "", "unfinished"⟩]),
       ("Win", [⟨[], "Open", "", "unfinished"⟩,
                ⟨[⟨"f.cpp", 3⟩], "Save", "", "unfinished"⟩,
                ⟨[], "Save", "x", ""⟩])]
      ["Win", "f.cpp", "3", "Save", "Guardar"] (by decide) (by decide)).2
      [⟨[], "Open", "", "unfinished"⟩,
       ⟨[⟨"f.cpp", 3⟩], "Save", "", "unfinished"⟩,
       ⟨[], "Save", "x", ""⟩] (by decide)).2 1 (by decide)
      (by decide) (by decide)).1
    exact h.trans (by decide)
  · have h := ((((c6_import_row
      [("Other", [⟨[], "Save", "", "unfinished"⟩]),
       ("Win", [⟨[], "Open", "", "unfinished"⟩,
                ⟨[⟨"f.cpp", 3⟩], "Save", "", "unfinished"⟩,
                ⟨[], "Save", "x", ""⟩])]
      ["Win", "f.cpp", "3", "Save", "Guardar"] (by decide) (by decide)).2
      [⟨[], "Open", "", "unfinished"⟩,
       ⟨[⟨"f.cpp", 3⟩], "Save", "", "unfinished"⟩,
       ⟨[], "Save", "x", ""⟩] (by decide)).2 1 (by decide)
      (by decide) (by decide)).2.2 "Other" (by decide))
    exact h.trans (by decide)

theorem qmapFind?_of_mem_nodup {α : Type} (k : String) (v : α) :
    ∀ (m : List (String × α)), (qmapKeys m).Nodup → (k, v) ∈ m →
    qmapFind? k m = some v := by
  intro m
  induction m with
  | nil =>
    intro _ hm
    simp at hm
  | cons p rest ih =>
    intro hnd hm
    obtain ⟨k', v'⟩ := p
    simp only [qmapKeys, List.map_cons, List.nodup_cons] at hnd
    rcases List.mem_cons.mp hm with h | h
    · injection h with h1 h2
      subst h1
      subst h2
      simp [qmapFind?]
    · have hk : ¬ (k' = k) := by
        intro he
        subst he
        exact hnd.1 (List.mem_map.mpr ⟨(k', v), h, rfl⟩)
      rw [qmapFind?, if_neg hk]
      exact ih hnd.2 h

/-- The message-eligibility test of the batch loop. -/
def eligMsg (m : MessageInfo) : Bool :=
  decide (m.source ≠ "" ∧ m.translation = "")

theorem eligibleSources_def (cat : Catalog) :
    eligibleSources cat =
      (cat.map fun p => ((p.2.filter eligMsg).map MessageInfo.source)).flatten
    := rfl

theorem run_allfail_ctx (respond : List String → Option Json) (size : Nat)
    (cat : Catalog) (key : String) (msgs : List MessageInfo)
    (hkey : Catalog.msgsOf cat key = msgs)
    (hfail : ∀ b, responseMapping (respond b) = none) :
    ∀ (n : Nat), n ≤ msgs.length → ∀ (st : RunState), st.catalog = cat →
    ((List.range n).foldl (scanMsgStep respond size key) st).catalog = cat ∧
    phrasesSent ((List.range n).foldl (scanMsgStep respond size key) st) ++
        ((List.range n).foldl (scanMsgStep respond size key) st).batch =
      phrasesSent st ++ st.batch ++
        (((msgs.take n).filter eligMsg).map MessageInfo.source) := by
  intro n
  induction n with
  | zero =>
    intro _ st hcat
    simp [hcat]
  | succ n ih =>
    intro hn st hcat
    have hn' : n ≤ msgs.length := Nat.le_of_succ_le hn
    have hlt : n < msgs.length := hn
    rw [List.range_succ, List.foldl_append, List.foldl_cons, List.foldl_nil]
    obtain ⟨ihcat, ihsum⟩ := ih hn' st hcat
    set st' := (List.range n).foldl (scanMsgStep respond size key) st with hst'
    have hmsg : getMsg st'.catalog key n = msgs.getD n ⟨[], "", "", ""⟩ := by
      rw [ihcat]
      unfold getMsg
      rw [hkey]
    have htake : msgs.take (n + 1) = msgs.take n ++ [msgs.getD n ⟨[], "", "", ""⟩] := by
      rw [List.take_succ, List.getElem?_eq_getElem hlt]
      simp [List.getD_eq_getElem?_getD, List.getElem?_eq_getElem hlt]
    rw [htake, List.filter_append, List.map_append]
    unfold scanMsgStep
    rw [hmsg]
    by_cases helig : (msgs.getD n ⟨[], "", "", ""⟩).source ≠ "" ∧
        (msgs.getD n ⟨[], "", "", ""⟩).translation = ""
    · have heligb : eligMsg (msgs.getD n ⟨[], "", "", ""⟩) = true := by
        unfold eligMsg
        exact decide_eq_true helig
      rw [if_pos helig]
      by_cases hsize : size ≤ (st'.batch ++
          [(msgs.getD n ⟨[], "", "", ""⟩).source]).length
      · rw [if_pos hsize]
        refine ⟨by simp [processResponseCat, hfail, ihcat], ?_⟩
        simp only [phrasesSent] at ihsum ⊢
        simp only [List.flatten_append, List.flatten_cons, List.flatten_nil,
          List.append_nil, List.filter_cons, heligb, List.filter_nil,
          List.map_cons, List.map_nil, if_true]
        rw [← List.append_assoc, ihsum]
        simp [List.append_assoc]
      · rw [if_neg hsize]
        refine ⟨ihcat, ?_⟩
        simp only [phrasesSent] at ihsum ⊢
        simp only [List.filter_cons, heligb, List.filter_nil, List.map_cons,
          List.map_nil, if_true]
        show st'.sent.flatten ++ (st'.batch ++
          [(msgs.getD n ⟨[], "", "", ""⟩).source]) = _
        rw [← List.append_assoc, ihsum]
        simp [List.append_assoc]
    · have heligb : eligMsg (msgs.getD n ⟨[], "", "", ""⟩) = false := by
        unfold eligMsg
        exact decide_eq_false helig
      rw [if_neg helig]
      refine ⟨ihcat, ?_⟩
      simp only [List.filter_cons, heligb, List.filter_nil, List.map_nil,
        if_false]
      rw [ihsum]
      simp

theorem run_allfail_ctxs (respond : List String → Option Json) (size : Nat)
    (cat : Catalog)
    (hfail : ∀ b, responseMapping (respond b) = none) :
    ∀ (ents : List (String × List MessageInfo)),
    (∀ p ∈ ents, Catalog.msgsOf cat p.1 = p.2) →
    ∀ (st : RunState), st.catalog = cat →
    ((ents.map fun p => (p.1, p.2.length)).foldl
      (scanCtx respond size) st).catalog = cat ∧
    phrasesSent ((ents.map fun p => (p.1, p.2.length)).foldl
        (scanCtx respond size) st) ++
      ((ents.map fun p => (p.1, p.2.length)).foldl
        (scanCtx respond size) st).batch =
      phrasesSent st ++ st.batch ++
        (ents.map fun p => ((p.2.filter eligMsg).map MessageInfo.source)).flatten := by
  intro ents
  induction ents with
  | nil =>
    intro _ st hcat
    simp [hcat]
  | cons p ents ih =>
    intro hents st hcat
    simp only [List.map_cons, List.foldl_cons, List.flatten_cons]
    have hp := hents p (List.mem_cons_self _ _)
    obtain ⟨hcat1, hsum1⟩ := run_allfail_ctx respond size cat p.1 p.2 hp hfail
      p.2.length (le_refl _) st hcat
    rw [List.take_length] at hsum1
    obtain ⟨hcat2, hsum2⟩ := ih (fun q hq => hents q (List.mem_cons_of_mem _ hq))
      (scanCtx respond size st (p.1, p.2.length)) hcat1
    refine ⟨hcat2, ?_⟩
    rw [hsum2]
    show phrasesSent (scanCtx respond size st (p.1, p.2.length)) ++
      (scanCtx respond size st (p.1, p.2.length)).batch ++ _ = _
    unfold scanCtx
    rw [hsum1]
    simp [List.append_assoc]

/-- C5: when the translator call for a batch fails entirely — no data, a
reply that is not a JSON object, no choices, or content that does not
parse as the expected JSON array (exactly the cases where
`responseMapping` is `none`) — the merge step returns the message list,
and the whole catalog, completely unmodified; and the run carries on
batching rather than aborting: even with every call failing, the catalog
survives unchanged and every eligible source is still sent, batch after
batch. -/
theorem c5_failed_batch_recovery :
    (∀ (r : Option Json) (msgs : List MessageInfo),
      responseMapping r = none → processResponseMsgs r msgs = msgs) ∧
    (∀ (r : Option Json) (cat : Catalog),
      responseMapping r = none → processResponseCat r cat = cat) ∧
    (∀ (respond : List String → Option Json) (size : Nat) (cat : Catalog),
      (qmapKeys cat).Nodup →
      (∀ b, responseMapping (respond b) = none) →
      (runPipeline respond size cat).catalog = cat ∧
      phrasesSent (runPipeline respond size cat) = eligibleSources cat) := by
  refine ⟨?_, ?_, ?_⟩
  · intro r msgs h
    unfold processResponseMsgs
    rw [h]
  · intro r cat h
    unfold processResponseCat
    rw [h]
  · intro respond size cat hnd hfail
    have hents : ∀ p ∈ cat, Catalog.msgsOf cat p.1 = p.2 := by
      intro p hp
      unfold Catalog.msgsOf
      rw [qmapFind?_of_mem_nodup p.1 p.2 cat hnd hp]
      rfl
    obtain ⟨hcat, hsum⟩ := run_allfail_ctxs respond size cat hfail cat hents
      ⟨cat, [], []⟩ rfl
    unfold runPipeline
    simp only [phrasesSent, List.flatten_nil, List.nil_append] at hsum ⊢
    set stf := (cat.map fun p => (p.1, p.2.length)).foldl
      (scanCtx respond size) ⟨cat, [], []⟩ with hstf
    by_cases hb : stf.batch = []
    · rw [if_pos hb]
      rw [hb, List.append_nil] at hsum
      exact ⟨hcat, hsum⟩
    · rw [if_neg hb]
      refine ⟨by simp [processResponseCat, hfail, hcat], ?_⟩
      simp only [List.flatten_append, List.flatten_cons, List.flatten_nil,
        List.append_nil]
      exact hsum

/-- Witness for C5: an empty transport reply leaves a concrete message
list untouched, and a run whose every call fails leaves a concrete catalog
unchanged while still sending its one eligible source. -/
theorem c5_failed_batch_recovery_witness :
    responseMapping none = none ∧
    processResponseMsgs none [⟨[], "Save", "", "unfinished"⟩] =
      [⟨[], "Save", "", "unfinished"⟩] ∧
    (runPipeline (fun _ => none) 1
      [("Win", [⟨[], "Save", "", "unfinished"⟩])]).catalog =
      [("Win", [⟨[], "Save", "", "unfinished"⟩])] ∧
    phrasesSent (runPipeline (fun _ => none) 1
      [("Win", [⟨[], "Save", "", "unfinished"⟩])]) =
      eligibleSources [("Win", [⟨[], "Save", "", "unfinished"⟩])] :=
  ⟨rfl,
   c5_failed_batch_recovery.1 none [⟨[], "Save", "", "unfinished"⟩] rfl,
   (c5_failed_batch_recovery.2.2 (fun _ => none) 1
     [("Win", [⟨[], "Save", "", "unfinished"⟩])] (by decide)
     (fun _ => rfl)).1,
   (c5_failed_batch_recovery.2.2 (fun _ => none) 1
     [("Win", [⟨[], "Save", "", "unfinished"⟩])] (by decide)
     (fun _ => rfl)).2⟩

/-- The mapping a response merges, empty on the failure paths. -/
def respMappingOf (r : Option Json) : List (String × String) :=
  (responseMapping r).getD []

theorem applyMappingMsgsKeep_nil (msgs : List MessageInfo) :
    applyMappingMsgsKeep [] msgs = msgs := by
  unfold applyMappingMsgsKeep
  conv_rhs => rw [← List.map_id msgs]
  apply List.map_congr_left
  intro m _
  rfl

theorem processResponseCat_msgsOf (r : Option Json) (cat : Catalog)
    (k : String) :
    Catalog.msgsOf (processResponseCat r cat) k =
      applyMappingMsgsKeep (respMappingOf r) (Catalog.msgsOf cat k) := by
  unfold processResponseCat respMappingOf
  cases hr : responseMapping r with
  | none => simp [applyMappingMsgsKeep_nil]
  | some mp =>
    simp only [Option.getD_some]
    unfold Catalog.msgsOf
    rw [qmapFind?_mapVal]
    cases qmapFind? k cat with
    | none => simp [applyMappingMsgsKeep]
    | some msgs => simp

theorem applyMappingMsgsKeep_length (mp : List (String × String))
    (msgs : List MessageInfo) :
    (applyMappingMsgsKeep mp msgs).length = msgs.length := by
  unfold applyMappingMsgsKeep
  simp

theorem applyMappingMsgsKeep_getD_source (mp : List (String × String))
    (msgs : List MessageInfo) (i : Nat) :
    ((applyMappingMsgsKeep mp msgs).getD i ⟨[], "", "", ""⟩).source =
      (msgs.getD i ⟨[], "", "", ""⟩).source := by
  unfold applyMappingMsgsKeep
  rw [List.getD_eq_getElem?_getD, List.getD_eq_getElem?_getD,
    List.getElem?_map]
  cases msgs[i]? with
  | none => rfl
  | some m =>
    simp only [Option.map_some', Option.getD_some]
    cases qmapFind? m.source mp <;> rfl

theorem qmapFind?_mem_keys {α : Type} (k : String) (v : α) :
    ∀ (m : List (String × α)), qmapFind? k m = some v → k ∈ m.map Prod.fst := by
  intro m
  induction m with
  | nil =>
    intro h
    simp [qmapFind?] at h
  | cons p rest ih =>
    intro h
    obtain ⟨k', v'⟩ := p
    by_cases hk : k' = k
    · subst hk
      simp
    · rw [qmapFind?, if_neg hk] at h
      simpa using Or.inr (ih h)

theorem applyMappingMsgsKeep_getD_translation_ne (mp : List (String × String))
    (msgs : List MessageInfo) (i : Nat)
    (h : ((applyMappingMsgsKeep mp msgs).getD i ⟨[], "", "", ""⟩).translation ≠
      (msgs.getD i ⟨[], "", "", ""⟩).translation) :
    (msgs.getD i ⟨[], "", "", ""⟩).source ∈ mp.map Prod.fst := by
  unfold applyMappingMsgsKeep at h
  rw [List.getD_eq_getElem?_getD, List.getD_eq_getElem?_getD,
    List.getElem?_map] at h
  rw [List.getD_eq_getElem?_getD]
  cases hm : msgs[i]? with
  | none =>
    rw [hm] at h
    simp at h
  | some m =>
    rw [hm] at h
    simp only [Option.map_some', Option.getD_some] at h ⊢
    cases hf : qmapFind? m.source mp with
    | none =>
      rw [hf] at h
      simp at h
    | some v =>
      exact qmapFind?_mem_keys m.source v mp hf

/-- The catalogs agree on context sizes and message sources (the batching
merges rewrite only translations and markers). -/
def SameSkeleton (cat cat' : Catalog) : Prop :=
  (∀ k, (Catalog.msgsOf cat' k).length = (Catalog.msgsOf cat k).length) ∧
  (∀ k i, (getMsg cat' k i).source = (getMsg cat k i).source)

/-- Every message whose translation differs from its original had its
source mentioned in `S` (some already-sent batch's mapping). -/
def TransOnly (S : List String) (cat cat' : Catalog) : Prop :=
  ∀ k i, (getMsg cat' k i).translation ≠ (getMsg cat k i).translation →
    (getMsg cat k i).source ∈ S

/-- Membership in the claim's amended target set: the non-empty source
texts of messages with empty translation before the run. -/
def inE (cat : Catalog) (s : String) : Prop :=
  s ≠ "" ∧ ∃ p ∈ cat, ∃ m ∈ p.2, m.source = s ∧ m.translation = ""

/-- The run invariant for the batching analysis. -/
def RunInv (cat : Catalog) (st : RunState) : Prop :=
  SameSkeleton cat st.catalog ∧
  TransOnly (phrasesSent st) cat st.catalog ∧
  (∀ s ∈ phrasesSent st ++ st.batch, inE cat s)

theorem sameSkeleton_prc (r : Option Json) (cat cur : Catalog)
    (hs : SameSkeleton cat cur) :
    SameSkeleton cat (processResponseCat r cur) := by
  obtain ⟨hlen, hsrc⟩ := hs
  constructor
  · intro k
    rw [processResponseCat_msgsOf, applyMappingMsgsKeep_length]
    exact hlen k
  · intro k i
    unfold getMsg
    rw [processResponseCat_msgsOf, applyMappingMsgsKeep_getD_source]
    exact hsrc k i

theorem transOnly_mono (S S' : List String) (cat cur : Catalog)
    (hsub : ∀ s ∈ S, s ∈ S') (h : TransOnly S cat cur) :
    TransOnly S' cat cur := fun k i hne => hsub _ (h k i hne)

theorem transOnly_prc (r : Option Json) (cat cur : Catalog) (S : List String)
    (hs : SameSkeleton cat cur) (ht : TransOnly S cat cur)
    (hkeys : ∀ k ∈ (respMappingOf r).map Prod.fst, k ∈ S) :
    TransOnly S cat (processResponseCat r cur) := by
  intro k i hne
  unfold getMsg at hne
  rw [processResponseCat_msgsOf] at hne
  by_cases hcur : (getMsg cur k i).translation = (getMsg cat k i).translation
  · have hne2 : ((applyMappingMsgsKeep (respMappingOf r)
        (Catalog.msgsOf cur k)).getD i ⟨[], "", "", ""⟩).translation ≠
        ((Catalog.msgsOf cur k).getD i ⟨[], "", "", ""⟩).translation := by
      intro he
      exact hne (he.trans hcur)
    have hmem := applyMappingMsgsKeep_getD_translation_ne _ _ _ hne2
    have hsrc := hs.2 k i
    unfold getMsg at hsrc
    show ((Catalog.msgsOf cat k).getD i ⟨[], "", "", ""⟩).source ∈ S
    rw [← hsrc]
    exact hkeys _ hmem
  · exact ht k i hcur

theorem c4_scan_step (respond : List String → Option Json) (size : Nat)
    (cat : Catalog) (key : String) (msgs : List MessageInfo)
    (hmem : (key, msgs) ∈ cat) (hkey : Catalog.msgsOf cat key = msgs)
    (hsub : ∀ b, ∀ k ∈ (respMappingOf (respond b)).map Prod.fst, k ∈ b)
    (i : Nat) (hi : i < msgs.length) (st : RunState)
    (hinv : RunInv cat st) :
    RunInv cat (scanMsgStep respond size key st i) ∧
    (∀ s, s ∈ phrasesSent st ++ st.batch →
      s ∈ phrasesSent (scanMsgStep respond size key st i) ++
        (scanMsgStep respond size key st i).batch) ∧
    ((msgs.getD i ⟨[], "", "", ""⟩).source ≠ "" →
      (msgs.getD i ⟨[], "", "", ""⟩).translation = "" →
      (msgs.getD i ⟨[], "", "", ""⟩).source ∈
        phrasesSent (scanMsgStep respond size key st i) ++
          (scanMsgStep respond size key st i).batch) := by
  obtain ⟨hskel, htrans, hE⟩ := hinv
  have hmorg : getMsg cat key i = msgs.getD i ⟨[], "", "", ""⟩ := by
    unfold getMsg
    rw [hkey]
  have hsrceq : (getMsg st.catalog key i).source =
      (msgs.getD i ⟨[], "", "", ""⟩).source := by
    rw [hskel.2 key i, hmorg]
  have hmmem : msgs.getD i ⟨[], "", "", ""⟩ ∈ msgs := by
    rw [List.getD_eq_getElem msgs _ hi]
    exact List.getElem_mem hi
  unfold scanMsgStep
  by_cases helig : (getMsg st.catalog key i).source ≠ "" ∧
      (getMsg st.catalog key i).translation = ""
  · rw [if_pos helig]
    have hsrcE : inE cat (getMsg st.catalog key i).source := by
      by_cases horg : (msgs.getD i ⟨[], "", "", ""⟩).translation = ""
      · exact ⟨helig.1, (key, msgs), hmem,
          msgs.getD i ⟨[], "", "", ""⟩, hmmem, hsrceq.symm, horg⟩
      · have hne : (getMsg st.catalog key i).translation ≠
            (getMsg cat key i).translation := by
          rw [hmorg, helig.2]
          exact fun h => horg h.symm
        have hmemS := htrans key i hne
        rw [hmorg] at hmemS
        have hin := hE _ (List.mem_append.mpr (Or.inl hmemS))
        rw [← hsrceq] at hin
        exact hin
    by_cases hsize : size ≤
        (st.batch ++ [(getMsg st.catalog key i).source]).length
    · rw [if_pos hsize]
      have hps : phrasesSent
          ⟨processResponseCat
              (respond (st.batch ++ [(getMsg st.catalog key i).source]))
              st.catalog, [],
            st.sent ++ [st.batch ++ [(getMsg st.catalog key i).source]]⟩ =
          phrasesSent st ++
            (st.batch ++ [(getMsg st.catalog key i).source]) := by
        simp [phrasesSent]
      refine ⟨⟨sameSkeleton_prc _ _ _ hskel, ?_, ?_⟩, ?_, ?_⟩
      · show TransOnly (phrasesSent _) cat _
        rw [hps]
        apply transOnly_prc _ _ _ _ hskel
        · exact transOnly_mono _ _ _ _
            (fun s hs => List.mem_append.mpr (Or.inl hs)) htrans
        · intro k hk
          exact List.mem_append.mpr (Or.inr
            (hsub (st.batch ++ [(getMsg st.catalog key i).source]) k hk))
      · intro s hsmem
        rw [hps] at hsmem
        simp only [List.append_nil] at hsmem
        rcases List.mem_append.mp hsmem with hs | hs
        · exact hE s (List.mem_append.mpr (Or.inl hs))
        · rcases List.mem_append.mp hs with hs2 | hs2
          · exact hE s (List.mem_append.mpr (Or.inr hs2))
          · simp only [List.mem_singleton] at hs2
            subst hs2
            exact hsrcE
      · intro s hs
        rw [hps]
        simp only [List.append_nil]
        rcases List.mem_append.mp hs with h | h
        · exact List.mem_append.mpr (Or.inl h)
        · exact List.mem_append.mpr
            (Or.inr (List.mem_append.mpr (Or.inl h)))
      · intro _ _
        rw [hps]
        simp only [List.append_nil]
        refine List.mem_append.mpr (Or.inr (List.mem_append.mpr (Or.inr ?_)))
        rw [← hsrceq]
        simp
    · rw [if_neg hsize]
      refine ⟨⟨hskel, htrans, ?_⟩, ?_, ?_⟩
      · intro s hsmem
        simp only [phrasesSent] at hsmem
        rcases List.mem_append.mp hsmem with hs | hs
        · exact hE s (List.mem_append.mpr (Or.inl hs))
        · rcases List.mem_append.mp hs with hs2 | hs2
          · exact hE s (List.mem_append.mpr (Or.inr hs2))
          · simp only [List.mem_singleton] at hs2
            subst hs2
            exact hsrcE
      · intro s hs
        show s ∈ phrasesSent st ++
          (st.batch ++ [(getMsg st.catalog key i).source])
        rcases List.mem_append.mp hs with h | h
        · exact List.mem_append.mpr (Or.inl h)
        · exact List.mem_append.mpr
            (Or.inr (List.mem_append.mpr (Or.inl h)))
      · intro _ _
        show (msgs.getD i ⟨[], "", "", ""⟩).source ∈ phrasesSent st ++
          (st.batch ++ [(getMsg st.catalog key i).source])
        refine List.mem_append.mpr (Or.inr (List.mem_append.mpr (Or.inr ?_)))
        rw [← hsrceq]
        simp
  · rw [if_neg helig]
    refine ⟨⟨hskel, htrans, hE⟩, fun s hs => hs, ?_⟩
    intro h1 h2
    have hsne : (getMsg st.catalog key i).source ≠ "" := by
      rw [hsrceq]
      exact h1
    have hct : (getMsg st.catalog key i).translation ≠ "" := by
      intro h
      exact helig ⟨hsne, h⟩
    have hne : (getMsg st.catalog key i).translation ≠
        (getMsg cat key i).translation := by
      rw [hmorg, h2]
      exact hct
    have hmemS := htrans key i hne
    rw [hmorg] at hmemS
    exact List.mem_append.mpr (Or.inl hmemS)

theorem c4_scan_ctx (respond : List String → Option Json) (size : Nat)
    (cat : Catalog) (key : String) (msgs : List MessageInfo)
    (hmem : (key, msgs) ∈ cat) (hkey : Catalog.msgsOf cat key = msgs)
    (hsub : ∀ b, ∀ k ∈ (respMappingOf (respond b)).map Prod.fst, k ∈ b) :
    ∀ (n : Nat), n ≤ msgs.length → ∀ (st : RunState), RunInv cat st →
    RunInv cat ((List.range n).foldl (scanMsgStep respond size key) st) ∧
    (∀ s, s ∈ phrasesSent st ++ st.batch →
      s ∈ phrasesSent ((List.range n).foldl (scanMsgStep respond size key) st)
        ++ ((List.range n).foldl (scanMsgStep respond size key) st).batch) ∧
    (∀ i, i < n → (msgs.getD i ⟨[], "", "", ""⟩).source ≠ "" →
      (msgs.getD i ⟨[], "", "", ""⟩).translation = "" →
      (msgs.getD i ⟨[], "", "", ""⟩).source ∈
        phrasesSent ((List.range n).foldl (scanMsgStep respond size key) st)
          ++ ((List.range n).foldl (scanMsgStep respond size key) st).batch) := by
  intro n
  induction n with
  | zero =>
    intro _ st hinv
    refine ⟨hinv, fun s hs => hs, ?_⟩
    intro i hi
    omega
  | succ n ih =>
    intro hn st hinv
    have hn' : n ≤ msgs.length := Nat.le_of_succ_le hn
    rw [List.range_succ, List.foldl_append, List.foldl_cons, List.foldl_nil]
    obtain ⟨ihinv, ihmono, ihcov⟩ := ih hn' st hinv
    obtain ⟨sinv, smono, scov⟩ := c4_scan_step respond size cat key msgs
      hmem hkey hsub n hn
      ((List.range n).foldl (scanMsgStep respond size key) st) ihinv
    refine ⟨sinv, fun s hs => smono s (ihmono s hs), ?_⟩
    intro i hi h1 h2
    by_cases hin : i < n
    · exact smono _ (ihcov i hin h1 h2)
    · have : i = n := by omega
      subst this
      exact scov h1 h2

theorem c4_scan_ctxs (respond : List String → Option Json) (size : Nat)
    (cat : Catalog)
    (hsub : ∀ b, ∀ k ∈ (respMappingOf (respond b)).map Prod.fst, k ∈ b) :
    ∀ (ents : List (String × List MessageInfo)),
    (∀ p ∈ ents, p ∈ cat ∧ Catalog.msgsOf cat p.1 = p.2) →
    ∀ (st : RunState), RunInv cat st →
    RunInv cat ((ents.map fun p => (p.1, p.2.length)).foldl
      (scanCtx respond size) st) ∧
    (∀ s, s ∈ phrasesSent st ++ st.batch →
      s ∈ phrasesSent ((ents.map fun p => (p.1, p.2.length)).foldl
          (scanCtx respond size) st) ++
        ((ents.map fun p => (p.1, p.2.length)).foldl
          (scanCtx respond size) st).batch) ∧
    (∀ p ∈ ents, ∀ i, i < p.2.length →
      (p.2.getD i ⟨[], "", "", ""⟩).source ≠ "" →
      (p.2.getD i ⟨[], "", "", ""⟩).translation = "" →
      (p.2.getD i ⟨[], "", "", ""⟩).source ∈
        phrasesSent ((ents.map fun p => (p.1, p.2.length)).foldl
          (scanCtx respond size) st) ++
        ((ents.map fun p => (p.1, p.2.length)).foldl
          (scanCtx respond size) st).batch) := by
  intro ents
  induction ents with
  | nil =>
    intro _ st hinv
    refine ⟨hinv, fun s hs => hs, ?_⟩
    intro p hp
    simp at hp
  | cons p ents ih =>
    intro hents st hinv
    simp only [List.map_cons, List.foldl_cons]
    obtain ⟨hp, hkey⟩ := hents p (List.mem_cons_self _ _)
    obtain ⟨cinv, cmono, ccov⟩ := c4_scan_ctx respond size cat p.1 p.2
      hp hkey hsub p.2.length (le_refl _) st hinv
    obtain ⟨iinv, imono, icov⟩ := ih
      (fun q hq => hents q (List.mem_cons_of_mem _ hq))
      (scanCtx respond size st (p.1, p.2.length)) cinv
    refine ⟨iinv, ?_, ?_⟩
    · intro s hs
      exact imono s (cmono s hs)
    · intro q hq i hi h1 h2
      rcases List.mem_cons.mp hq with rfl | hq
      · exact imono _ (ccov i hi h1 h2)
      · exact icov q hq i hi h1 h2

/-- C4, counterexample: a context with two untranslated messages sharing
source `S` and one untranslated message with empty source, batch size 50,
no translator reply.  The run sends `S` twice within the one context's
scan (no duplicate skipping), and the empty source — the source text of a
Message with empty translation — is never sent, so the sent set is not the
claimed set either. -/
theorem c4_no_dedup_counterexample :
    phrasesSent (runPipeline (fun _ => none) 50
      [("C", [⟨[], "S", "", "unfinished"⟩, ⟨[], "S", "", "unfinished"⟩,
              ⟨[], "", "", "unfinished"⟩])]) = ["S", "S"] ∧
    ¬ (phrasesSent (runPipeline (fun _ => none) 50
      [("C", [⟨[], "S", "", "unfinished"⟩, ⟨[], "S", "", "unfinished"⟩,
              ⟨[], "", "", "unfinished"⟩])])).Nodup ∧
    (⟨[], "", "", "unfinished"⟩ : MessageInfo) ∈
      ([⟨[], "S", "", "unfinished"⟩, ⟨[], "S", "", "unfinished"⟩,
        ⟨[], "", "", "unfinished"⟩] : List MessageInfo) ∧
    "" ∉ phrasesSent (runPipeline (fun _ => none) 50
      [("C", [⟨[], "S", "", "unfinished"⟩, ⟨[], "S", "", "unfinished"⟩,
              ⟨[], "", "", "unfinished"⟩])]) := by
  refine ⟨by decide, by decide, by decide, by decide⟩

/-- C4 as amended: for every catalog and batch size, and every translator
whose reply mappings mention only phrases of the batch they answer (the
interface contract of §6), the set of phrases sent across all batches of a
run equals exactly the set of distinct non-empty source texts of messages
whose translation was empty before the run; a phrase may however be sent
more than once within one context's scan, since duplicates already in the
batch are not skipped. -/
theorem c4_batch_coverage (respond : List String → Option Json) (size : Nat)
    (cat : Catalog) (hnd : (qmapKeys cat).Nodup)
    (hsub : ∀ b, ∀ k ∈ (respMappingOf (respond b)).map Prod.fst, k ∈ b) :
    ∀ s, s ∈ phrasesSent (runPipeline respond size cat) ↔ inE cat s := by
  have hents : ∀ p ∈ cat, p ∈ cat ∧ Catalog.msgsOf cat p.1 = p.2 := by
    intro p hp
    refine ⟨hp, ?_⟩
    unfold Catalog.msgsOf
    rw [qmapFind?_of_mem_nodup p.1 p.2 cat hnd hp]
    rfl
  have hinv0 : RunInv cat ⟨cat, [], []⟩ := by
    refine ⟨⟨fun k => rfl, fun k i => rfl⟩, fun k i h => absurd rfl h, ?_⟩
    intro s hs
    simp [phrasesSent] at hs
  obtain ⟨hinv, _, hcov⟩ := c4_scan_ctxs respond size cat hsub cat hents
    ⟨cat, [], []⟩ hinv0
  intro s
  unfold runPipeline
  set stf := (cat.map fun p => (p.1, p.2.length)).foldl
    (scanCtx respond size) ⟨cat, [], []⟩ with hstf
  have hsetE : ∀ t ∈ phrasesSent stf ++ stf.batch, inE cat t := hinv.2.2
  have hcov2 : inE cat s → s ∈ phrasesSent stf ++ stf.batch := by
    rintro ⟨hne, p, hp, m, hm, hsrc, htr⟩
    obtain ⟨i, hi, hgi⟩ := List.mem_iff_getElem.mp hm
    have hgd : p.2.getD i ⟨[], "", "", ""⟩ = m := by
      rw [List.getD_eq_getElem p.2 _ hi, hgi]
    have := hcov p hp i hi (by rw [hgd, hsrc]; exact hne) (by rw [hgd, htr])
    rw [hgd, hsrc] at this
    exact this
  by_cases hb : stf.batch = []
  · rw [if_pos hb]
    constructor
    · intro hs
      exact hsetE s (List.mem_append.mpr (Or.inl hs))
    · intro hs
      have := hcov2 hs
      rw [hb, List.append_nil] at this
      exact this
  · rw [if_neg hb]
    have hps : phrasesSent ⟨processResponseCat (respond stf.batch) stf.catalog,
        [], stf.sent ++ [stf.batch]⟩ = phrasesSent stf ++ stf.batch := by
      simp [phrasesSent]
    rw [hps]
    exact ⟨hsetE s, hcov2⟩

/-- Witness for C4's amended statement: one context, sources `S` (twice,
untranslated), `T` (already translated) and the empty source; a silent
translator; the sent set is exactly the single eligible source `S`. -/
theorem c4_batch_coverage_witness :
    (qmapKeys ([("C", [⟨[], "S", "", "unfinished"⟩, ⟨[], "S", "", "unfinished"⟩,
      ⟨[], "T", "done", ""⟩, ⟨[], "", "", "unfinished"⟩])] : Catalog)).Nodup ∧
    ("S" ∈ phrasesSent (runPipeline (fun _ => none) 50
      [("C", [⟨[], "S", "", "unfinished"⟩, ⟨[], "S", "", "unfinished"⟩,
        ⟨[], "T", "done", ""⟩, ⟨[], "", "", "unfinished"⟩])]) ↔
      inE [("C", [⟨[], "S", "", "unfinished"⟩, ⟨[], "S", "", "unfinished"⟩,
        ⟨[], "T", "done", ""⟩, ⟨[], "", "", "unfinished"⟩])] "S") ∧
    ("T" ∈ phrasesSent (runPipeline (fun _ => none) 50
      [("C", [⟨[], "S", "", "unfinished"⟩, ⟨[], "S", "", "unfinished"⟩,
        ⟨[], "T", "done", ""⟩, ⟨[], "", "", "unfinished"⟩])]) ↔
      inE [("C", [⟨[], "S", "", "unfinished"⟩, ⟨[], "S", "", "unfinished"⟩,
        ⟨[], "T", "done", ""⟩, ⟨[], "", "", "unfinished"⟩])] "T") :=
  ⟨by decide,
   c4_batch_coverage (fun _ => none) 50
     [("C", [⟨[], "S", "", "unfinished"⟩, ⟨[], "S", "", "unfinished"⟩,
       ⟨[], "T", "done", ""⟩, ⟨[], "", "", "unfinished"⟩])]
     (by decide) (fun b k hk => by simp [respMappingOf, responseMapping] at hk)
     "S",
   c4_batch_coverage (fun _ => none) 50
     [("C", [⟨[], "S", "", "unfinished"⟩, ⟨[], "S", "", "unfinished"⟩,
       ⟨[], "T", "done", ""⟩, ⟨[], "", "", "unfinished"⟩])]
     (by decide) (fun b k hk => by simp [respMappingOf, responseMapping] at hk)
     "T"⟩

theorem natDecimalGo_chars :
    ∀ (fuel n : Nat) (acc : List Char), ∀ c ∈ natDecimalGo fuel n acc,
    c ∈ acc ∨ isDigitChar c = true := by
  intro fuel
  induction fuel with
  | zero =>
    intro n acc c hc
    exact Or.inl hc
  | succ fuel ih =>
    intro n acc c hc
    unfold natDecimalGo at hc
    by_cases h10 : n < 10
    · rw [if_pos h10] at hc
      rcases List.mem_cons.mp hc with rfl | hc
      · exact Or.inr (digitChar10_isDigit n)
      · exact Or.inl hc
    · rw [if_neg h10] at hc
      rcases ih (n / 10) _ c hc with h | h
      · rcases List.mem_cons.mp h with rfl | h
        · exact Or.inr (digitChar10_isDigit n)
        · exact Or.inl h
      · exact Or.inr h

theorem intToString_chars (i : Int) :
    ∀ c ∈ (intToString i).data, isDigitChar c = true ∨ c = '-' := by
  intro c hc
  unfold intToString at hc
  by_cases hneg : i < 0
  · rw [if_pos hneg] at hc
    rcases List.mem_cons.mp hc with rfl | hc
    · exact Or.inr rfl
    · rcases natDecimalGo_chars _ _ [] c hc with h | h
      · simp at h
      · exact Or.inl h
  · rw [if_neg hneg] at hc
    rcases natDecimalGo_chars _ _ [] c hc with h | h
    · simp at h
    · exact Or.inl h

theorem contains_eq_false_of_not_mem {c : Char} {cs : List Char}
    (h : ¬ (c ∈ cs)) : cs.contains c = false := by
  rw [List.contains, List.elem_eq_mem]
  simp [h]

theorem intToString_needsQuoting (i : Int) :
    csvNeedsQuoting (intToString i).data = false := by
  have hmem : ∀ c ∈ (intToString i).data, isDigitChar c = true ∨ c = '-' :=
    intToString_chars i
  unfold csvNeedsQuoting
  have h1 : ¬ ((',' : Char) ∈ (intToString i).data) := by
    intro h
    rcases hmem ',' h with h | h <;> simp [isDigitChar] at h
  have h2 : ¬ (('\"' : Char) ∈ (intToString i).data) := by
    intro h
    rcases hmem '\"' h with h | h <;> simp [isDigitChar] at h
  have h3 : ¬ (('\n' : Char) ∈ (intToString i).data) := by
    intro h
    rcases hmem '\n' h with h | h <;> simp [isDigitChar] at h
  rw [contains_eq_false_of_not_mem h1, contains_eq_false_of_not_mem h2,
    contains_eq_false_of_not_mem h3]
  rfl

theorem exportRowLine_eq_csvLine (k : String) (loc : Location)
    (m : MessageInfo) :
    exportRowLine k loc m =
      csvLineOfFields [k, loc.filename, intToString loc.line,
        m.source, m.translation] := by
  unfold exportRowLine csvLineOfFields
  simp only [List.map_cons, List.map_nil, csvJoinChars]
  congr 1
  have hesc : escCsvChars (intToString loc.line).data =
      (intToString loc.line).data := by
    unfold escCsvChars
    rw [intToString_needsQuoting]
    rfl
  rw [hesc]
  simp [List.append_assoc]

theorem parse_exportRowLine (k : String) (loc : Location) (m : MessageInfo) :
    parseCsvLine (exportRowLine k loc m) =
      [k, loc.filename, intToString loc.line, m.source, m.translation] := by
  rw [exportRowLine_eq_csvLine]
  exact parseCsvLine_ofFields _ (by simp)

theorem dropWhile_keeps_mem {p : Char → Bool} {c : Char} :
    ∀ {cs : List Char}, c ∈ cs → p c = false → c ∈ cs.dropWhile p := by
  intro cs
  induction cs with
  | nil =>
    intro h _
    simp at h
  | cons d ds ih =>
    intro hc hp
    rw [List.dropWhile]
    cases hpd : p d with
    | true =>
      rcases List.mem_cons.mp hc with rfl | hc
      · rw [hp] at hpd
        cases hpd
      · simp only [hpd]
        exact ih hc hp
    | false =>
      simp only [hpd]
      exact hc

theorem trimChars_keeps_mem {c : Char} {cs : List Char}
    (hc : c ∈ cs) (hp : isQtSpace c = false) : c ∈ trimChars cs := by
  unfold trimChars
  rw [List.mem_reverse]
  apply dropWhile_keeps_mem _ hp
  rw [List.mem_reverse]
  exact dropWhile_keeps_mem hc hp

theorem qtrim_ne_empty_of_comma {s : String} (h : (',' : Char) ∈ s.data) :
    qtrim s ≠ "" := by
  intro he
  have : trimChars s.data = [] := congrArg String.data he
  have hmem := trimChars_keeps_mem h (by decide)
  rw [this] at hmem
  simp at hmem

theorem trimChars_eq_self {cs : List Char}
    (h : ∀ c ∈ cs, isQtSpace c = false) : trimChars cs = cs := by
  unfold trimChars
  have h1 : cs.dropWhile isQtSpace = cs := by
    cases cs with
    | nil => rfl
    | cons c cs' =>
      rw [List.dropWhile_cons, if_neg]
      rw [h c (List.mem_cons_self _ _)]
      simp
  rw [h1]
  have h2 : cs.reverse.dropWhile isQtSpace = cs.reverse := by
    cases hr : cs.reverse with
    | nil => rfl
    | cons c cs' =>
      rw [List.dropWhile_cons, if_neg]
      have : c ∈ cs := by
        rw [← List.mem_reverse, hr]
        exact List.mem_cons_self _ _
      rw [h c this]
      simp
  rw [h2, List.reverse_reverse]

theorem qtrim_intToString (i : Int) : qtrim (intToString i) = intToString i := by
  unfold qtrim
  rw [trimChars_eq_self]
  intro c hc
  rcases intToString_chars i c hc with h | h
  · unfold isDigitChar at h
    simp only [Bool.and_eq_true, decide_eq_true_eq] at h
    unfold isQtSpace
    simp only [Bool.or_eq_false_iff, decide_eq_false_iff_not]
    refine ⟨⟨⟨⟨⟨?_, ?_⟩, ?_⟩, ?_⟩, ?_⟩, ?_⟩ <;> intro he <;>
      first
        | (rw [he] at h; revert h; decide)
        | omega
  · subst h
    decide

/-- The state of one context's message list during the import phase of the
interchange round trip: the first `j` messages already restored
(`canonMsg`), the rest still reset (`clearMsg`). -/
def restoredUpTo (msgs : List MessageInfo) (j : Nat) : List MessageInfo :=
  (msgs.take j).map canonMsg ++ (msgs.drop j).map clearMsg

theorem getD_mem_of_lt {l : List MessageInfo} {j : Nat} (h : j < l.length)
    (d : MessageInfo) : l.getD j d ∈ l := by
  rw [List.getD_eq_getElem l d h]
  exact List.getElem_mem h

theorem updateFirst_restored_advance :
    ∀ (msgs : List MessageInfo) (j : Nat),
    (msgs.map MessageInfo.source).Nodup → j < msgs.length →
    updateFirstMatch (msgs.getD j ⟨[], "", "", ""⟩).source
      (msgs.getD j ⟨[], "", "", ""⟩).translation (restoredUpTo msgs j) =
      restoredUpTo msgs (j + 1) := by
  intro msgs
  induction msgs with
  | nil =>
    intro j _ hj
    simp at hj
  | cons m rest ih =>
    intro j hnd hj
    rw [List.map_cons] at hnd
    rcases List.nodup_cons.mp hnd with ⟨hm, hrest⟩
    cases j with
    | zero =>
      show updateFirstMatch m.source m.translation
        (restoredUpTo (m :: rest) 0) = _
      unfold restoredUpTo
      simp only [List.take_zero, List.map_nil, List.nil_append,
        List.drop_zero, List.map_cons, List.take_succ_cons,
        List.drop_succ_cons]
      rw [updateFirstMatch]
      simp [clearMsg, canonMsg]
    | succ j =>
      have hj' : j < rest.length := by
        simpa using hj
      have hgd : (m :: rest).getD (j + 1) ⟨[], "", "", ""⟩ =
          rest.getD j ⟨[], "", "", ""⟩ := List.getD_cons_succ
      rw [hgd]
      have hsrc : (rest.getD j ⟨[], "", "", ""⟩).source ∈
          rest.map MessageInfo.source :=
        List.mem_map.mpr ⟨_, getD_mem_of_lt hj' _, rfl⟩
      have hne : ¬ ((canonMsg m).source =
          (rest.getD j ⟨[], "", "", ""⟩).source) := by
        intro he
        apply hm
        have hcm : (canonMsg m).source = m.source := rfl
        rw [← hcm, he]
        exact hsrc
      show updateFirstMatch _ _ (restoredUpTo (m :: rest) (j + 1)) = _
      unfold restoredUpTo
      simp only [List.take_succ_cons, List.drop_succ_cons, List.map_cons,
        List.cons_append]
      rw [updateFirstMatch, if_neg hne]
      have hihx := ih j hrest hj'
      unfold restoredUpTo at hihx
      rw [hihx]

theorem updateFirst_restored_fix :
    ∀ (msgs : List MessageInfo) (j : Nat),
    (msgs.map MessageInfo.source).Nodup → j < msgs.length →
    updateFirstMatch (msgs.getD j ⟨[], "", "", ""⟩).source
      (msgs.getD j ⟨[], "", "", ""⟩).translation (restoredUpTo msgs (j + 1)) =
      restoredUpTo msgs (j + 1) := by
  intro msgs
  induction msgs with
  | nil =>
    intro j _ hj
    simp at hj
  | cons m rest ih =>
    intro j hnd hj
    rw [List.map_cons] at hnd
    rcases List.nodup_cons.mp hnd with ⟨hm, hrest⟩
    cases j with
    | zero =>
      show updateFirstMatch m.source m.translation
        (restoredUpTo (m :: rest) 1) = _
      unfold restoredUpTo
      simp only [List.take_succ_cons, List.take_zero, List.drop_succ_cons,
        List.drop_zero, List.map_cons, List.map_nil, List.cons_append,
        List.nil_append]
      rw [updateFirstMatch]
      simp [canonMsg]
    | succ j =>
      have hj' : j < rest.length := by
        simpa using hj
      have hgd : (m :: rest).getD (j + 1) ⟨[], "", "", ""⟩ =
          rest.getD j ⟨[], "", "", ""⟩ := List.getD_cons_succ
      rw [hgd]
      have hsrc : (rest.getD j ⟨[], "", "", ""⟩).source ∈
          rest.map MessageInfo.source :=
        List.mem_map.mpr ⟨_, getD_mem_of_lt hj' _, rfl⟩
      have hne : ¬ ((canonMsg m).source =
          (rest.getD j ⟨[], "", "", ""⟩).source) := by
        intro he
        apply hm
        have hcm : (canonMsg m).source = m.source := rfl
        rw [← hcm, he]
        exact hsrc
      show updateFirstMatch _ _ (restoredUpTo (m :: rest) (j + 2)) = _
      unfold restoredUpTo
      simp only [List.take_succ_cons, List.drop_succ_cons, List.map_cons,
        List.cons_append]
      rw [updateFirstMatch, if_neg hne]
      have hihx := ih j hrest hj'
      unfold restoredUpTo at hihx
      rw [hihx]

theorem qmapFind?_mapEntry (g : String → List MessageInfo → List MessageInfo)
    (k : String) :
    ∀ (cat : Catalog),
    qmapFind? k (cat.map fun p => (p.1, g p.1 p.2)) =
      (qmapFind? k cat).map (g k) := by
  intro cat
  induction cat with
  | nil => rfl
  | cons p rest ih =>
    obtain ⟨k', v⟩ := p
    by_cases h : k' = k
    · subst h
      simp [qmapFind?]
    · simp [qmapFind?, h, ih]

theorem qmapAdjust_mapEntry (g : String → List MessageInfo → List MessageInfo)
    (k : String) (f : List MessageInfo → List MessageInfo) :
    ∀ (cat : Catalog), (qmapKeys cat).Nodup →
    qmapAdjust k f (cat.map fun p => (p.1, g p.1 p.2)) =
      cat.map fun p =>
        (p.1, if p.1 = k then f (g p.1 p.2) else g p.1 p.2) := by
  intro cat
  induction cat with
  | nil =>
    intro _
    rfl
  | cons p rest ih =>
    intro hnd
    obtain ⟨k', v⟩ := p
    simp only [qmapKeys, List.map_cons, List.nodup_cons] at hnd
    by_cases h : k' = k
    · subst h
      simp only [List.map_cons, qmapAdjust, eq_self_iff_true, if_true]
      congr 1
      have : ∀ q ∈ rest, ¬ (q.1 = k') := by
        intro q hq he
        exact hnd.1 (he ▸ List.mem_map.mpr ⟨q, hq, rfl⟩)
      apply List.map_congr_left
      intro q hq
      rw [if_neg (this q hq)]
    · simp only [List.map_cons, qmapAdjust, if_neg h]
      rw [ih hnd.2]

theorem entry_unique {cat : Catalog} (hnd : (qmapKeys cat).Nodup)
    {p q : String × List MessageInfo} (hp : p ∈ cat) (hq : q ∈ cat)
    (hk : p.1 = q.1) : p.2 = q.2 := by
  have h1 := qmapFind?_of_mem_nodup p.1 p.2 cat hnd (by
    obtain ⟨a, b⟩ := p
    exact hp)
  have h2 := qmapFind?_of_mem_nodup q.1 q.2 cat hnd (by
    obtain ⟨a, b⟩ := q
    exact hq)
  rw [hk] at h1
  rw [h1] at h2
  injection h2

/-- The catalog during the interchange round trip's import: contexts whose
rows were all consumed are restored, the context `k` being consumed is
restored up to message `j`, the rest are still reset. -/
def midCat (cat : Catalog) (done : List String) (k : String) (j : Nat) :
    Catalog :=
  cat.map fun p => (p.1,
    if p.1 ∈ done then p.2.map canonMsg
    else if p.1 = k then restoredUpTo p.2 j
    else p.2.map clearMsg)

/-- The catalog between contexts during the import: contexts in `done`
restored, the rest reset. -/
def importedCat (cat : Catalog) (done : List String) : Catalog :=
  cat.map fun p => (p.1,
    if p.1 ∈ done then p.2.map canonMsg else p.2.map clearMsg)

theorem comma_mem_exportRowLine (k : String) (loc : Location)
    (m : MessageInfo) : (',' : Char) ∈ (exportRowLine k loc m).data := by
  have hd : (exportRowLine k loc m).data =
      escCsvChars k.data ++ ',' :: escCsvChars loc.filename.data ++
        ',' :: (intToString loc.line).data ++
        ',' :: escCsvChars m.source.data ++
        ',' :: escCsvChars m.translation.data := rfl
  rw [hd]
  simp

theorem midCat_find (cat : Catalog) (done : List String) (k : String)
    (msgs : List MessageInfo) (j' : Nat)
    (hnd : (qmapKeys cat).Nodup) (hmem : (k, msgs) ∈ cat)
    (hkdone : ¬ (k ∈ done)) :
    qmapFind? k (midCat cat done k j') = some (restoredUpTo msgs j') := by
  induction cat with
  | nil => cases hmem
  | cons p rest ih =>
    obtain ⟨k', v⟩ := p
    simp only [qmapKeys, List.map_cons, List.nodup_cons] at hnd
    by_cases h : k' = k
    · subst h
      have hv : v = msgs := by
        rcases List.mem_cons.mp hmem with he | hr
        · exact (congrArg Prod.snd he).symm
        · exact absurd (List.mem_map.mpr ⟨(k', msgs), hr, rfl⟩) hnd.1
      subst hv
      show qmapFind? k' ((k', if k' ∈ done then v.map canonMsg
        else if k' = k' then restoredUpTo v j' else v.map clearMsg) ::
        midCat rest done k' j') = _
      rw [qmapFind?]
      simp [hkdone]
    · have hmem' : (k, msgs) ∈ rest := by
        rcases List.mem_cons.mp hmem with he | hr
        · exact absurd (congrArg Prod.fst he).symm h
        · exact hr
      show qmapFind? k ((k', _) :: midCat rest done k j') = _
      rw [qmapFind?, if_neg h]
      exact ih hnd.2 hmem'

theorem midCat_adjust (cat : Catalog) (done : List String) (k : String)
    (j' : Nat) (f : List MessageInfo → List MessageInfo)
    (hnd : (qmapKeys cat).Nodup) (hkdone : ¬ (k ∈ done)) :
    qmapAdjust k f (midCat cat done k j') =
      cat.map fun p => (p.1,
        if p.1 ∈ done then p.2.map canonMsg
        else if p.1 = k then f (restoredUpTo p.2 j')
        else p.2.map clearMsg) := by
  induction cat with
  | nil => rfl
  | cons p rest ih =>
    obtain ⟨k', v⟩ := p
    simp only [qmapKeys, List.map_cons, List.nodup_cons] at hnd
    by_cases h : k' = k
    · subst h
      show qmapAdjust k' f ((k', if k' ∈ done then v.map canonMsg
        else if k' = k' then restoredUpTo v j' else v.map clearMsg) ::
        midCat rest done k' j') = _
      rw [qmapAdjust]
      simp only [eq_self_iff_true, if_true, List.map_cons]
      rw [if_neg hkdone, if_neg hkdone]
      congr 1
      unfold midCat
      apply List.map_congr_left
      intro q hq
      have hqk : ¬ (q.1 = k') := by
        intro he
        exact hnd.1 (he ▸ List.mem_map.mpr ⟨q, hq, rfl⟩)
      rw [if_neg hqk, if_neg hqk]
    · show qmapAdjust k f ((k', _) :: midCat rest done k j') = _
      rw [qmapAdjust, if_neg h]
      rw [List.map_cons]
      congr 1
      · simp only [if_neg h]
      · exact ih hnd.2

theorem c7_row_apply (cat : Catalog) (done : List String) (k : String)
    (msgs : List MessageInfo) (m : MessageInfo) (loc : Location)
    (hnd : (qmapKeys cat).Nodup)
    (hmem : (k, msgs) ∈ cat)
    (hkdone : ¬ (k ∈ done))
    (hktrim : qtrim k = k)
    (hstrim : qtrim m.source = m.source)
    (httrim : qtrim m.translation = m.translation)
    (hline : -2147483648 ≤ loc.line ∧ loc.line ≤ 2147483647)
    (j' : Nat) :
    importCsvLine (midCat cat done k j') (exportRowLine k loc m) =
      cat.map fun p => (p.1,
        if p.1 ∈ done then p.2.map canonMsg
        else if p.1 = k then
          updateFirstMatch m.source m.translation (restoredUpTo p.2 j')
        else p.2.map clearMsg) := by
  unfold importCsvLine
  rw [if_neg (qtrim_ne_empty_of_comma (comma_mem_exportRowLine k loc m))]
  rw [parse_exportRowLine]
  unfold importRowFields
  rw [if_neg (by norm_num)]
  show (match qtToIntOk (qtrim (intToString loc.line)) with
    | none => midCat cat done k j'
    | some _ =>
      match qmapFind? (qtrim k) (midCat cat done k j') with
      | none => midCat cat done k j'
      | some _ => qmapAdjust (qtrim k)
          (updateFirstMatch (qtrim m.source) (qtrim m.translation))
          (midCat cat done k j')) = _
  rw [qtrim_intToString, qtToIntOk_intToString loc.line hline.1 hline.2,
    hktrim, hstrim, httrim,
    midCat_find cat done k msgs j' hnd hmem hkdone]
  exact midCat_adjust cat done k j' _ hnd hkdone

theorem c7_row_advance (cat : Catalog) (done : List String) (k : String)
    (msgs : List MessageInfo) (j : Nat) (loc : Location)
    (hnd : (qmapKeys cat).Nodup)
    (hmem : (k, msgs) ∈ cat)
    (hkdone : ¬ (k ∈ done))
    (hktrim : qtrim k = k)
    (hsnd : (msgs.map MessageInfo.source).Nodup)
    (hj : j < msgs.length)
    (hstrim : qtrim (msgs.getD j ⟨[], "", "", ""⟩).source =
      (msgs.getD j ⟨[], "", "", ""⟩).source)
    (httrim : qtrim (msgs.getD j ⟨[], "", "", ""⟩).translation =
      (msgs.getD j ⟨[], "", "", ""⟩).translation)
    (hline : -2147483648 ≤ loc.line ∧ loc.line ≤ 2147483647) :
    importCsvLine (midCat cat done k j)
      (exportRowLine k loc (msgs.getD j ⟨[], "", "", ""⟩)) =
      midCat cat done k (j + 1) := by
  rw [c7_row_apply cat done k msgs _ loc hnd hmem hkdone hktrim hstrim
    httrim hline j]
  unfold midCat
  apply List.map_congr_left
  intro p hp
  by_cases hd : p.1 ∈ done
  · rw [if_pos hd, if_pos hd]
  · rw [if_neg hd, if_neg hd]
    by_cases hpk : p.1 = k
    · rw [if_pos hpk, if_pos hpk]
      have hps : p.2 = msgs := entry_unique hnd hp hmem hpk
      rw [hps]
      exact congrArg (fun l => (p.1, l))
        (updateFirst_restored_advance msgs j hsnd hj)
    · rw [if_neg hpk, if_neg hpk]

theorem c7_row_fix (cat : Catalog) (done : List String) (k : String)
    (msgs : List MessageInfo) (j : Nat) (loc : Location)
    (hnd : (qmapKeys cat).Nodup)
    (hmem : (k, msgs) ∈ cat)
    (hkdone : ¬ (k ∈ done))
    (hktrim : qtrim k = k)
    (hsnd : (msgs.map MessageInfo.source).Nodup)
    (hj : j < msgs.length)
    (hstrim : qtrim (msgs.getD j ⟨[], "", "", ""⟩).source =
      (msgs.getD j ⟨[], "", "", ""⟩).source)
    (httrim : qtrim (msgs.getD j ⟨[], "", "", ""⟩).translation =
      (msgs.getD j ⟨[], "", "", ""⟩).translation)
    (hline : -2147483648 ≤ loc.line ∧ loc.line ≤ 2147483647) :
    importCsvLine (midCat cat done k (j + 1))
      (exportRowLine k loc (msgs.getD j ⟨[], "", "", ""⟩)) =
      midCat cat done k (j + 1) := by
  rw [c7_row_apply cat done k msgs _ loc hnd hmem hkdone hktrim hstrim
    httrim hline (j + 1)]
  unfold midCat
  apply List.map_congr_left
  intro p hp
  by_cases hd : p.1 ∈ done
  · rw [if_pos hd, if_pos hd]
  · rw [if_neg hd, if_neg hd]
    by_cases hpk : p.1 = k
    · rw [if_pos hpk, if_pos hpk]
      have hps : p.2 = msgs := entry_unique hnd hp hmem hpk
      rw [hps]
      exact congrArg (fun l => (p.1, l))
        (updateFirst_restored_fix msgs j hsnd hj)
    · rw [if_neg hpk, if_neg hpk]

theorem c7_fix_fold (cat : Catalog) (done : List String) (k : String)
    (msgs : List MessageInfo) (j : Nat)
    (hnd : (qmapKeys cat).Nodup)
    (hmem : (k, msgs) ∈ cat)
    (hkdone : ¬ (k ∈ done))
    (hktrim : qtrim k = k)
    (hsnd : (msgs.map MessageInfo.source).Nodup)
    (hj : j < msgs.length)
    (hstrim : qtrim (msgs.getD j ⟨[], "", "", ""⟩).source =
      (msgs.getD j ⟨[], "", "", ""⟩).source)
    (httrim : qtrim (msgs.getD j ⟨[], "", "", ""⟩).translation =
      (msgs.getD j ⟨[], "", "", ""⟩).translation) :
    ∀ (locs : List Location),
    (∀ loc ∈ locs, -2147483648 ≤ loc.line ∧ loc.line ≤ 2147483647) →
    List.foldl importCsvLine (midCat cat done k (j + 1))
      (locs.map fun loc =>
        exportRowLine k loc (msgs.getD j ⟨[], "", "", ""⟩)) =
      midCat cat done k (j + 1) := by
  intro locs
  induction locs with
  | nil =>
    intro _
    rfl
  | cons loc rest ih =>
    intro hlines
    rw [List.map_cons, List.foldl_cons,
      c7_row_fix cat done k msgs j loc hnd hmem hkdone hktrim hsnd hj
        hstrim httrim (hlines loc (List.mem_cons_self _ _))]
    exact ih fun l hl => hlines l (List.mem_cons_of_mem _ hl)

theorem c7_msg_fold (cat : Catalog) (done : List String) (k : String)
    (msgs : List MessageInfo) (j : Nat)
    (hnd : (qmapKeys cat).Nodup)
    (hmem : (k, msgs) ∈ cat)
    (hkdone : ¬ (k ∈ done))
    (hktrim : qtrim k = k)
    (hsnd : (msgs.map MessageInfo.source).Nodup)
    (hj : j < msgs.length)
    (hstrim : qtrim (msgs.getD j ⟨[], "", "", ""⟩).source =
      (msgs.getD j ⟨[], "", "", ""⟩).source)
    (httrim : qtrim (msgs.getD j ⟨[], "", "", ""⟩).translation =
      (msgs.getD j ⟨[], "", "", ""⟩).translation)
    (locs : List Location) (hne : locs ≠ [])
    (hlines : ∀ loc ∈ locs,
      -2147483648 ≤ loc.line ∧ loc.line ≤ 2147483647) :
    List.foldl importCsvLine (midCat cat done k j)
      (locs.map fun loc =>
        exportRowLine k loc (msgs.getD j ⟨[], "", "", ""⟩)) =
      midCat cat done k (j + 1) := by
  cases locs with
  | nil => exact absurd rfl hne
  | cons loc rest =>
    rw [List.map_cons, List.foldl_cons,
      c7_row_advance cat done k msgs j loc hnd hmem hkdone hktrim hsnd hj
        hstrim httrim (hlines loc (List.mem_cons_self _ _))]
    exact c7_fix_fold cat done k msgs j hnd hmem hkdone hktrim hsnd hj
      hstrim httrim rest fun l hl => hlines l (List.mem_cons_of_mem _ hl)

theorem restoredUpTo_zero (msgs : List MessageInfo) :
    restoredUpTo msgs 0 = msgs.map clearMsg := by
  simp [restoredUpTo]

theorem restoredUpTo_length (msgs : List MessageInfo) :
    restoredUpTo msgs msgs.length = msgs.map canonMsg := by
  simp [restoredUpTo]

theorem midCat_zero (cat : Catalog) (done : List String) (k : String)
    (hkdone : ¬ (k ∈ done)) :
    midCat cat done k 0 = importedCat cat done := by
  unfold midCat importedCat
  apply List.map_congr_left
  intro p _
  by_cases hd : p.1 ∈ done
  · rw [if_pos hd, if_pos hd]
  · rw [if_neg hd, if_neg hd]
    by_cases hpk : p.1 = k
    · rw [if_pos hpk, restoredUpTo_zero]
    · rw [if_neg hpk]

theorem midCat_full (cat : Catalog) (done : List String) (k : String)
    (msgs : List MessageInfo)
    (hnd : (qmapKeys cat).Nodup) (hmem : (k, msgs) ∈ cat)
    (hkdone : ¬ (k ∈ done)) :
    midCat cat done k msgs.length = importedCat cat (k :: done) := by
  unfold midCat importedCat
  apply List.map_congr_left
  intro p hp
  by_cases hd : p.1 ∈ done
  · rw [if_pos hd, if_pos (List.mem_cons_of_mem _ hd)]
  · rw [if_neg hd]
    by_cases hpk : p.1 = k
    · rw [if_pos hpk, if_pos (List.mem_cons.mpr (Or.inl hpk))]
      have hps : p.2 = msgs := entry_unique hnd hp hmem hpk
      rw [hps, restoredUpTo_length]
    · rw [if_neg hpk]
      rw [if_neg (by
        intro hx
        rcases List.mem_cons.mp hx with he | hr
        · exact hpk he
        · exact hd hr)]

theorem c7_ctx_fold_aux (cat : Catalog) (done : List String) (k : String)
    (msgs : List MessageInfo)
    (hnd : (qmapKeys cat).Nodup)
    (hmem : (k, msgs) ∈ cat)
    (hkdone : ¬ (k ∈ done))
    (hktrim : qtrim k = k)
    (hsnd : (msgs.map MessageInfo.source).Nodup)
    (hmsgs : ∀ m ∈ msgs, qtrim m.source = m.source ∧
      qtrim m.translation = m.translation ∧ m.locations ≠ [] ∧
      ∀ loc ∈ m.locations,
        -2147483648 ≤ loc.line ∧ loc.line ≤ 2147483647) :
    ∀ (suf pref : List MessageInfo), msgs = pref ++ suf →
    List.foldl importCsvLine (midCat cat done k pref.length)
      ((suf.map fun m =>
        m.locations.map fun loc => exportRowLine k loc m).flatten) =
      midCat cat done k msgs.length := by
  intro suf
  induction suf with
  | nil =>
    intro pref h
    have hlen : pref.length = msgs.length := by
      rw [h, List.append_nil]
    rw [hlen]
    rfl
  | cons m suf' ih =>
    intro pref h
    have hj : pref.length < msgs.length := by
      rw [h, List.length_append, List.length_cons]
      omega
    have hgd : msgs.getD pref.length ⟨[], "", "", ""⟩ = m := by
      rw [h, List.getD_eq_getElem _ _ (by rw [← h]; exact hj)]
      rw [List.getElem_append_right (le_refl pref.length)]
      simp
    have hm : m ∈ msgs := by
      rw [h]
      exact List.mem_append.mpr (Or.inr (List.mem_cons_self _ _))
    obtain ⟨hstrim, httrim, hlocne, hlines⟩ := hmsgs m hm
    rw [List.map_cons, List.flatten_cons, List.foldl_append]
    rw [show (m.locations.map fun loc => exportRowLine k loc m) =
      (m.locations.map fun loc =>
        exportRowLine k loc (msgs.getD pref.length ⟨[], "", "", ""⟩)) by
      rw [hgd]]
    rw [c7_msg_fold cat done k msgs pref.length hnd hmem hkdone hktrim hsnd
      hj (hgd ▸ hstrim) (hgd ▸ httrim) m.locations hlocne hlines]
    have hpre : msgs = (pref ++ [m]) ++ suf' := by
      rw [h]
      simp
    have hlen1 : (pref ++ [m]).length = pref.length + 1 := by
      simp
    have := ih (pref ++ [m]) hpre
    rw [hlen1] at this
    exact this

theorem c7_ctx_fold (cat : Catalog) (done : List String) (k : String)
    (msgs : List MessageInfo)
    (hnd : (qmapKeys cat).Nodup)
    (hmem : (k, msgs) ∈ cat)
    (hkdone : ¬ (k ∈ done))
    (hktrim : qtrim k = k)
    (hsnd : (msgs.map MessageInfo.source).Nodup)
    (hmsgs : ∀ m ∈ msgs, qtrim m.source = m.source ∧
      qtrim m.translation = m.translation ∧ m.locations ≠ [] ∧
      ∀ loc ∈ m.locations,
        -2147483648 ≤ loc.line ∧ loc.line ≤ 2147483647) :
    List.foldl importCsvLine (importedCat cat done)
      ((msgs.map fun m =>
        m.locations.map fun loc => exportRowLine k loc m).flatten) =
      importedCat cat (k :: done) := by
  rw [← midCat_zero cat done k hkdone,
    ← midCat_full cat done k msgs hnd hmem hkdone]
  have h0 : (0 : Nat) = ([] : List MessageInfo).length := rfl
  rw [show midCat cat done k 0 =
    midCat cat done k ([] : List MessageInfo).length from rfl]
  exact c7_ctx_fold_aux cat done k msgs hnd hmem hkdone hktrim hsnd hmsgs
    msgs [] rfl

theorem c7_cat_fold_aux (cat : Catalog)
    (hnd : (qmapKeys cat).Nodup)
    (hctx : ∀ p ∈ cat, qtrim p.1 = p.1 ∧
      (p.2.map MessageInfo.source).Nodup ∧
      ∀ m ∈ p.2, qtrim m.source = m.source ∧
        qtrim m.translation = m.translation ∧ m.locations ≠ [] ∧
        ∀ loc ∈ m.locations,
          -2147483648 ≤ loc.line ∧ loc.line ≤ 2147483647) :
    ∀ (suf pref : List (String × List MessageInfo)) (done : List String),
    cat = pref ++ suf →
    (∀ x, x ∈ done ↔ x ∈ pref.map Prod.fst) →
    List.foldl importCsvLine (importedCat cat done)
      ((suf.map fun p => (p.2.map fun m =>
        m.locations.map fun loc => exportRowLine p.1 loc m
        ).flatten).flatten) =
      cat.map fun p => (p.1, p.2.map canonMsg) := by
  intro suf
  induction suf with
  | nil =>
    intro pref done h hdone
    show importedCat cat done = _
    unfold importedCat
    apply List.map_congr_left
    intro p hp
    rw [if_pos ((hdone p.1).mpr (by
      have hp' : p ∈ pref := by
        rw [h, List.append_nil] at hp
        exact hp
      exact List.mem_map.mpr ⟨p, hp', rfl⟩))]
  | cons q suf' ih =>
    intro pref done h hdone
    obtain ⟨k, msgs⟩ := q
    have hmem : (k, msgs) ∈ cat := by
      rw [h]
      exact List.mem_append.mpr (Or.inr (List.mem_cons_self _ _))
    have hknp : ¬ (k ∈ pref.map Prod.fst) := by
      intro hk
      have hx := hnd
      rw [h] at hx
      unfold qmapKeys at hx
      rw [List.map_append, List.map_cons] at hx
      rcases (List.nodup_append.mp hx) with ⟨_, _, hdisj⟩
      exact hdisj hk (List.mem_cons_self _ _)
    have hkdone : ¬ (k ∈ done) := fun hk => hknp ((hdone k).mp hk)
    obtain ⟨hktrim, hsnd, hmsgs⟩ := hctx (k, msgs) hmem
    rw [List.map_cons, List.flatten_cons, List.foldl_append]
    rw [c7_ctx_fold cat done k msgs hnd hmem hkdone hktrim hsnd hmsgs]
    apply ih (pref ++ [(k, msgs)]) (k :: done)
    · rw [h]
      simp
    · intro x
      constructor
      · intro hx
        rcases List.mem_cons.mp hx with he | hr
        · subst he
          simp
        · rw [List.map_append]
          exact List.mem_append.mpr (Or.inl ((hdone x).mp hr))
      · intro hx
        rw [List.map_append] at hx
        rcases List.mem_append.mp hx with hl | hr
        · exact List.mem_cons_of_mem _ ((hdone x).mpr hl)
        · simp at hr
          subst hr
          exact List.mem_cons_self _ _

theorem clearCatalog_importedCat (cat : Catalog) :
    clearCatalog cat = importedCat cat [] := by
  unfold clearCatalog importedCat
  apply List.map_congr_left
  intro p _
  rw [if_neg (List.not_mem_nil _)]

/-- The header line of the CSV file (`translation.cpp:196`). -/
def csvHeaderLine : String :=
  "name,filename,line,source,translation"

/-- Lines joined into file text: each line followed by the `'\n'` that
`out << ... << "\n"` writes (`translation.cpp:196` and `218-222`). -/
def nlJoinChars : List String → List Char
  | [] => []
  | l :: rest => l.data ++ '\n' :: nlJoinChars rest

/-- The text `exportToCsv` writes (`translation.cpp:183-228`): the header
line and then the data rows, each line terminated by `'\n'`.  (The UTF-8
byte-order mark written before the header is byte-level encoding below the
character model; on import it can only land in the header line, which is
read once and discarded.) -/
def exportCsvText (cat : Catalog) : String :=
  ⟨nlJoinChars (csvHeaderLine :: exportRows cat)⟩

/-- One trailing carriage return stripped, as the text-mode
read/`readLine` treatment of a `"\r\n"` terminator leaves the line without
it; the argument is a line's characters in reverse, so the head is the
line's last character. -/
def stripCrHead : List Char → List Char
  | [] => []
  | c :: rest => if c = '\r' then rest else c :: rest

/-- The physical lines `QTextStream::readLine` yields from the text
(`importFromCsv`, `translation.cpp:290-294`): split at `'\n'`, a `'\r'`
immediately before the `'\n'` stripped, and no line after a final `'\n'`
(the loop runs only while `!atEnd()`).  `acc` holds the characters of the
line being read, in reverse. -/
def qtReadLinesGo : List Char → List Char → List String
  | acc, [] => if acc.isEmpty then [] else [⟨acc.reverse⟩]
  | acc, c :: rest =>
    if c = '\n' then ⟨(stripCrHead acc).reverse⟩ :: qtReadLinesGo [] rest
    else qtReadLinesGo (c :: acc) rest

/-- All lines `readLine` yields from a text. -/
def qtReadLines (text : String) : List String :=
  qtReadLinesGo [] text.data

/-- `importFromCsv` on the file text (`translation.cpp:281-302`): read and
discard the header line when the file is non-empty, then run the row loop
on the remaining physical lines. -/
def importFromCsvText (cat : Catalog) (text : String) : Catalog :=
  match qtReadLines text with
  | [] => cat
  | _ :: rows => importCsvRows cat rows

theorem doubleQuotes_mem {c : Char} :
    ∀ {cs : List Char}, c ∈ doubleQuotes cs → c ∈ cs ∨ c = '\"' := by
  intro cs
  induction cs with
  | nil =>
    intro h
    cases h
  | cons d ds ih =>
    intro h
    unfold doubleQuotes at h
    by_cases hd : d = '\"'
    · rw [if_pos hd] at h
      rcases List.mem_cons.mp h with rfl | h
      · exact Or.inr rfl
      · rcases List.mem_cons.mp h with rfl | h
        · exact Or.inr rfl
        · rcases ih h with h | h
          · exact Or.inl (List.mem_cons_of_mem _ h)
          · exact Or.inr h
    · rw [if_neg hd] at h
      rcases List.mem_cons.mp h with rfl | h
      · exact Or.inl (List.mem_cons_self _ _)
      · rcases ih h with h | h
        · exact Or.inl (List.mem_cons_of_mem _ h)
        · exact Or.inr h

theorem escCsvChars_mem {c : Char} {cs : List Char}
    (h : c ∈ escCsvChars cs) : c ∈ cs ∨ c = '\"' := by
  unfold escCsvChars at h
  by_cases hq : csvNeedsQuoting cs = true
  · rw [if_pos hq] at h
    rcases List.mem_cons.mp h with rfl | h
    · exact Or.inr rfl
    · rcases List.mem_append.mp h with h | h
      · exact doubleQuotes_mem h
      · rcases List.mem_cons.mp h with rfl | h
        · exact Or.inr rfl
        · cases h
  · rw [if_neg hq] at h
    exact Or.inl h

theorem exportRowLine_no_nl_cr {b : Char} (k : String) (loc : Location)
    (m : MessageInfo) (hb : isDigitChar b = false ∧ b ≠ '-' ∧ b ≠ ',' ∧
      b ≠ '\"')
    (hk : ¬ (b ∈ k.data)) (hf : ¬ (b ∈ loc.filename.data))
    (hs : ¬ (b ∈ m.source.data)) (ht : ¬ (b ∈ m.translation.data)) :
    ¬ (b ∈ (exportRowLine k loc m).data) := by
  intro hmem
  have hd : (exportRowLine k loc m).data =
      escCsvChars k.data ++ ',' :: escCsvChars loc.filename.data ++
        ',' :: (intToString loc.line).data ++
        ',' :: escCsvChars m.source.data ++
        ',' :: escCsvChars m.translation.data := rfl
  rw [hd] at hmem
  have hesc : ∀ {cs : List Char}, ¬ (b ∈ cs) → b ∈ escCsvChars cs → False := by
    intro cs hncs hin
    rcases escCsvChars_mem hin with h | h
    · exact hncs h
    · exact hb.2.2.2 h
  simp only [List.mem_append, List.mem_cons] at hmem
  rcases hmem with (((hA | hc | hF) | hc | hL) | hc | hS) | hc | hT
  · exact hesc hk hA
  · exact hb.2.2.1 hc
  · exact hesc hf hF
  · exact hb.2.2.1 hc
  · rcases intToString_chars loc.line b hL with h | h
    · rw [hb.1] at h
      exact absurd h (by decide)
    · exact hb.2.1 h
  · exact hb.2.2.1 hc
  · exact hesc hs hS
  · exact hb.2.2.1 hc
  · exact hesc ht hT

theorem exportRows_mem {row : String} {cat : Catalog}
    (h : row ∈ exportRows cat) :
    ∃ p ∈ cat, ∃ m ∈ p.2, ∃ loc ∈ m.locations,
      row = exportRowLine p.1 loc m := by
  unfold exportRows at h
  rcases List.mem_flatten.mp h with ⟨rows, hrows, hrow⟩
  rcases List.mem_map.mp hrows with ⟨p, hp, rfl⟩
  rcases List.mem_flatten.mp hrow with ⟨mrows, hmrows, hr⟩
  rcases List.mem_map.mp hmrows with ⟨m, hm, rfl⟩
  rcases List.mem_map.mp hr with ⟨loc, hloc, rfl⟩
  exact ⟨p, hp, m, hm, loc, hloc, rfl⟩

theorem qtReadLinesGo_append :
    ∀ (cs acc rest : List Char), ¬ (('\n' : Char) ∈ cs) →
    qtReadLinesGo acc (cs ++ '\n' :: rest) =
      ⟨(stripCrHead (cs.reverse ++ acc)).reverse⟩ :: qtReadLinesGo [] rest := by
  intro cs
  induction cs with
  | nil =>
    intro acc rest _
    simp only [List.nil_append, List.reverse_nil]
    show (if ('\n' : Char) = '\n' then
        (⟨(stripCrHead acc).reverse⟩ : String) :: qtReadLinesGo [] rest
      else qtReadLinesGo ('\n' :: acc) rest) = _
    rw [if_pos rfl]
  | cons c cs' ih =>
    intro acc rest hn
    have hc : ¬ (c = '\n') := fun he =>
      hn (he ▸ List.mem_cons_self _ _)
    have hn' : ¬ (('\n' : Char) ∈ cs') := fun hx =>
      hn (List.mem_cons_of_mem _ hx)
    show (if c = '\n' then
        (⟨(stripCrHead acc).reverse⟩ : String) ::
          qtReadLinesGo [] (cs' ++ '\n' :: rest)
      else qtReadLinesGo (c :: acc) (cs' ++ '\n' :: rest)) = _
    rw [if_neg hc, ih (c :: acc) rest hn']
    have hl : (c :: cs').reverse ++ acc = cs'.reverse ++ c :: acc := by
      simp [List.reverse_cons, List.append_assoc]
    rw [hl]

theorem qtReadLines_join :
    ∀ (lines : List String),
    (∀ l ∈ lines, ¬ (('\n' : Char) ∈ l.data) ∧ ¬ (('\r' : Char) ∈ l.data)) →
    qtReadLinesGo [] (nlJoinChars lines) = lines := by
  intro lines
  induction lines with
  | nil =>
    intro _
    rfl
  | cons l rest ih =>
    intro hcl
    obtain ⟨hnl, hcr⟩ := hcl l (List.mem_cons_self _ _)
    show qtReadLinesGo [] (l.data ++ '\n' :: nlJoinChars rest) = _
    rw [qtReadLinesGo_append l.data [] (nlJoinChars rest) hnl,
      List.append_nil]
    have hstrip : stripCrHead l.data.reverse = l.data.reverse := by
      cases hrev : l.data.reverse with
      | nil => rfl
      | cons c t =>
        have hcmem : c ∈ l.data := by
          rw [← List.mem_reverse, hrev]
          exact List.mem_cons_self _ _
        have hcne : ¬ (c = '\r') := fun he => hcr (he ▸ hcmem)
        show (if c = '\r' then t else c :: t) = c :: t
        rw [if_neg hcne]
    rw [hstrip, List.reverse_reverse]
    rw [ih fun x hx => hcl x (List.mem_cons_of_mem _ hx)]

/-- Claim C7, counterexample: in the catalog with the single context
`"C"` holding one message with source `"S"`, translation `"T"` and NO
locations, all (context, source) pairs are unique, yet export emits no
row for the message (`exportToCsv` writes one row per location,
`translation.cpp:212-225`) — the exported file is the header line alone —
so importing the exported file into the reset copy leaves that copy
unchanged and the message's translation is `""`, not the pre-reset `"T"`:
the round trip does not restore every translation. -/
theorem c7_no_location_counterexample :
    exportRows [("C", [⟨[], "S", "T", ""⟩])] = [] ∧
    importFromCsvText (clearCatalog [("C", [⟨[], "S", "T", ""⟩])])
        (exportCsvText [("C", [⟨[], "S", "T", ""⟩])]) =
      clearCatalog [("C", [⟨[], "S", "T", ""⟩])] ∧
    (Catalog.msgsOf (importFromCsvText
        (clearCatalog [("C", [⟨[], "S", "T", ""⟩])])
        (exportCsvText [("C", [⟨[], "S", "T", ""⟩])])) "C").map
      MessageInfo.translation = [""] ∧
    (Catalog.msgsOf [("C", [⟨[], "S", "T", ""⟩])] "C").map
      MessageInfo.translation = ["T"] := by
  decide

/-- Claim C7 (amended): for every catalog with distinct context names,
per-context distinct source texts, every message carrying at least one
location, context names, sources and translations unchanged by whitespace
trimming and free of newline and carriage-return characters (as are the
location filenames), and location line numbers within `int` range, the
composition export (`exportToCsv`, producing the file text), then reset on
a copy (`clearTranslation`), then import of the exported file text into
the reset copy (`importFromCsv`, reading the text line by line) restores
the copy exactly to the original catalog with each message's unfinished
marker re-derived from its translation; in particular every message's
translation is restored to its pre-reset value. -/
theorem c7_export_import_roundtrip (cat : Catalog)
    (hnd : (qmapKeys cat).Nodup)
    (hctx : ∀ p ∈ cat, qtrim p.1 = p.1 ∧
      (p.2.map MessageInfo.source).Nodup ∧
      ∀ m ∈ p.2, qtrim m.source = m.source ∧
        qtrim m.translation = m.translation ∧ m.locations ≠ [] ∧
        ∀ loc ∈ m.locations,
          -2147483648 ≤ loc.line ∧ loc.line ≤ 2147483647)
    (hnl : ∀ p ∈ cat,
      (¬ (('\n' : Char) ∈ p.1.data) ∧ ¬ (('\r' : Char) ∈ p.1.data)) ∧
      ∀ m ∈ p.2,
        (¬ (('\n' : Char) ∈ m.source.data) ∧
          ¬ (('\r' : Char) ∈ m.source.data)) ∧
        (¬ (('\n' : Char) ∈ m.translation.data) ∧
          ¬ (('\r' : Char) ∈ m.translation.data)) ∧
        ∀ loc ∈ m.locations,
          ¬ (('\n' : Char) ∈ loc.filename.data) ∧
          ¬ (('\r' : Char) ∈ loc.filename.data)) :
    importFromCsvText (clearCatalog cat) (exportCsvText cat) =
      cat.map (fun p => (p.1, p.2.map canonMsg)) ∧
    (importFromCsvText (clearCatalog cat) (exportCsvText cat)).map
        (fun p => (p.1, p.2.map MessageInfo.translation)) =
      cat.map (fun p => (p.1, p.2.map MessageInfo.translation)) := by
  have hrows : ∀ l ∈ csvHeaderLine :: exportRows cat,
      ¬ (('\n' : Char) ∈ l.data) ∧ ¬ (('\r' : Char) ∈ l.data) := by
    intro l hl
    rcases List.mem_cons.mp hl with rfl | hl
    · exact ⟨by decide, by decide⟩
    · rcases exportRows_mem hl with ⟨p, hp, m, hm, loc, hloc, rfl⟩
      obtain ⟨⟨hk1, hk2⟩, hmsg⟩ := hnl p hp
      obtain ⟨⟨hs1, hs2⟩, ⟨ht1, ht2⟩, hfl⟩ := hmsg m hm
      obtain ⟨hf1, hf2⟩ := hfl loc hloc
      constructor
      · exact exportRowLine_no_nl_cr p.1 loc m
          ⟨by decide, by decide, by decide, by decide⟩ hk1 hf1 hs1 ht1
      · exact exportRowLine_no_nl_cr p.1 loc m
          ⟨by decide, by decide, by decide, by decide⟩ hk2 hf2 hs2 ht2
  have hsplit : qtReadLines (exportCsvText cat) =
      csvHeaderLine :: exportRows cat := by
    unfold qtReadLines exportCsvText
    exact qtReadLines_join _ hrows
  have hmain : importFromCsvText (clearCatalog cat) (exportCsvText cat) =
      cat.map (fun p => (p.1, p.2.map canonMsg)) := by
    unfold importFromCsvText
    rw [hsplit]
    show importCsvRows (clearCatalog cat) (exportRows cat) = _
    rw [clearCatalog_importedCat]
    exact c7_cat_fold_aux cat hnd hctx cat [] [] rfl (by simp)
  refine ⟨hmain, ?_⟩
  rw [hmain, List.map_map]
  apply List.map_congr_left
  intro p _
  show (p.1, (p.2.map canonMsg).map MessageInfo.translation) = _
  rw [List.map_map]
  congr 1

/-- Witness for the amended C7 round trip on a one-message catalog. -/
theorem c7_export_import_roundtrip_witness :
    importFromCsvText
        (clearCatalog [("C", [⟨[⟨"f.cpp", 3⟩], "S", "T", ""⟩])])
        (exportCsvText [("C", [⟨[⟨"f.cpp", 3⟩], "S", "T", ""⟩])]) =
      ([("C", [⟨[⟨"f.cpp", 3⟩], "S", "T", ""⟩])] : Catalog).map
        (fun p => (p.1, p.2.map canonMsg)) ∧
    (importFromCsvText
        (clearCatalog [("C", [⟨[⟨"f.cpp", 3⟩], "S", "T", ""⟩])])
        (exportCsvText [("C", [⟨[⟨"f.cpp", 3⟩], "S", "T", ""⟩])])).map
        (fun p => (p.1, p.2.map MessageInfo.translation)) =
      ([("C", [⟨[⟨"f.cpp", 3⟩], "S", "T", ""⟩])] : Catalog).map
        (fun p => (p.1, p.2.map MessageInfo.translation)) :=
  c7_export_import_roundtrip [("C", [⟨[⟨"f.cpp", 3⟩], "S", "T", ""⟩])]
    (by decide) (by decide) (by decide)
